import Mathlib

/-!
Calculator engine of `src/components/Calculator.js`.

A shallow embedding of the calculator's reducer (`handleButtonPress` and the
handlers it dispatches to), of `performCalculation` and of `formatNumber`,
together with the part of the ECMAScript runtime they call: `Number(string)`,
`Number.isFinite`, the four arithmetic operators on IEEE-754 binary64 values,
`String(number)` and `Number.prototype.toLocaleString('en-US')`.

JavaScript strings are Lean `String`s handled through their character lists
(the calculator's strings hold characters of the Basic Multilingual Plane only,
so counting characters agrees with JavaScript's `length` and `slice`);
binary64 values are kept exactly, as a sign, an integer significand and a
binary exponent, and every arithmetic result is rounded to nearest, ties to
even.
-/

namespace JS

/-! ## Binary64 values -/

/-- An ECMAScript Number: `NaN`, an infinity, or the finite value
`(-1)^neg * m * 2^e`.  Finite values produced by the operations below are
canonical: `m = 0` and `e = 0` (a signed zero), or `2^52 ≤ m < 2^53` with
`-1074 ≤ e ≤ 971`, or `0 < m < 2^52` with `e = -1074`. -/
inductive Num where
  | nan : Num
  | inf (neg : Bool) : Num
  | fin (neg : Bool) (m : Nat) (e : Int) : Num
  deriving DecidableEq, Repr

/-- Number of binary digits of `n`, by halving (`fuel` bounds the halvings). -/
def bitLenAux : Nat → Nat → Nat
  | 0, _ => 0
  | fuel + 1, n => if n = 0 then 0 else bitLenAux fuel (n / 2) + 1

/-- Number of binary digits of `n` (`0` for `0`). -/
def bitLen (n : Nat) : Nat := bitLenAux n n

/-- Quotient and remainder of `(n / d) / 2^e`, as `(quotient, remainder, divisor)`. -/
def scaledDiv (n d : Nat) (e : Int) : Nat × Nat × Nat :=
  let num := if e < 0 then n * 2 ^ (-e).toNat else n
  let den := if e < 0 then d else d * 2 ^ e.toNat
  (num / den, num % den, den)

/-- Round the non-negative rational `n / d` (with `0 < d`) to the nearest
binary64 value, ties to even, with sign `neg`; overflow gives an infinity and
underflow a signed zero. -/
def roundRat (neg : Bool) (n d : Nat) : Num :=
  if n = 0 then Num.fin neg 0 0
  else
    let k : Int := (bitLen n : Int) - (bitLen d : Int)
    let e0 : Int := k - 53
    let e1 : Int := if (scaledDiv n d e0).1 ≥ 2 ^ 53 then e0 + 1 else e0
    let e : Int := if e1 < -1074 then -1074 else e1
    let q := (scaledDiv n d e).1
    let r := (scaledDiv n d e).2.1
    let den := (scaledDiv n d e).2.2
    let up : Bool := decide (den < 2 * r) || (decide (2 * r = den) && decide (q % 2 = 1))
    let m := if up then q + 1 else q
    let m2 := if m = 2 ^ 53 then 2 ^ 52 else m
    let e2 : Int := if m = 2 ^ 53 then e + 1 else e
    if m2 = 0 then Num.fin neg 0 0
    else if e2 > 971 then Num.inf neg
    else Num.fin neg m2 e2

/-- Exact value of `m * 2^e` as a fraction `(numerator, denominator)`. -/
def fracOf (m : Nat) (e : Int) : Nat × Nat :=
  if e < 0 then (m, 2 ^ (-e).toNat) else (m * 2 ^ e.toNat, 1)

/-- The test `Number.isFinite(x)`. -/
def isFinite : Num → Bool
  | Num.fin _ _ _ => true
  | _ => false

/-- The test `x === 0` (true for both signed zeros). -/
def isZero : Num → Bool
  | Num.fin _ m _ => decide (m = 0)
  | _ => false

/-- Unary minus. -/
def neg : Num → Num
  | Num.nan => Num.nan
  | Num.inf s => Num.inf (!s)
  | Num.fin s m e => Num.fin (!s) m e

/-- The signed integer `(-1)^s * m`. -/
def signed (s : Bool) (m : Nat) : Int := if s then -(m : Int) else (m : Int)

/-- The operator `a + b` on Numbers. -/
def add : Num → Num → Num
  | Num.nan, _ => Num.nan
  | _, Num.nan => Num.nan
  | Num.inf s, Num.inf t => if s = t then Num.inf s else Num.nan
  | Num.inf s, Num.fin _ _ _ => Num.inf s
  | Num.fin _ _ _, Num.inf t => Num.inf t
  | Num.fin s m e, Num.fin t n f =>
    let g : Int := if e ≤ f then e else f
    let total : Int := signed s (m * 2 ^ (e - g).toNat) + signed t (n * 2 ^ (f - g).toNat)
    if total = 0 then Num.fin (s && t) 0 0
    else roundRat (decide (total < 0)) (fracOf total.natAbs g).1 (fracOf total.natAbs g).2

/-- The operator `a - b` on Numbers. -/
def sub (a b : Num) : Num := add a (neg b)

/-- The operator `a * b` on Numbers. -/
def mul : Num → Num → Num
  | Num.nan, _ => Num.nan
  | _, Num.nan => Num.nan
  | Num.inf s, Num.inf t => Num.inf (xor s t)
  | Num.inf s, Num.fin t n _ => if n = 0 then Num.nan else Num.inf (xor s t)
  | Num.fin s m _, Num.inf t => if m = 0 then Num.nan else Num.inf (xor s t)
  | Num.fin s m e, Num.fin t n f =>
    roundRat (xor s t) (fracOf (m * n) (e + f)).1 (fracOf (m * n) (e + f)).2

/-- The operator `a / b` on Numbers. -/
def div : Num → Num → Num
  | Num.nan, _ => Num.nan
  | _, Num.nan => Num.nan
  | Num.inf _, Num.inf _ => Num.nan
  | Num.inf s, Num.fin t _ _ => Num.inf (xor s t)
  | Num.fin s _ _, Num.inf t => Num.fin (xor s t) 0 0
  | Num.fin s m e, Num.fin t n f =>
    if n = 0 then (if m = 0 then Num.nan else Num.inf (xor s t))
    else roundRat (xor s t) ((fracOf m e).1 * (fracOf n f).2) ((fracOf m e).2 * (fracOf n f).1)

/-! ## `String(number)` -/

/-- The character of a decimal digit. -/
def digitChar (d : Nat) : Char :=
  match d with
  | 0 => '0' | 1 => '1' | 2 => '2' | 3 => '3' | 4 => '4'
  | 5 => '5' | 6 => '6' | 7 => '7' | 8 => '8' | _ => '9'

/-- Decimal digits of `n`, most significant first (`fuel` bounds their number). -/
def natDigitsAux : Nat → Nat → List Char
  | 0, _ => []
  | fuel + 1, n =>
    if n < 10 then [digitChar n] else natDigitsAux fuel (n / 10) ++ [digitChar (n % 10)]

/-- Decimal digits of `n`, most significant first; `0` gives `['0']`. -/
def natDigits (n : Nat) : List Char := natDigitsAux (n + 1) n

/-- Least `j ≥ start` with `num * 10^j ≥ den`, searched for `fuel` steps. -/
def scaleUpAux : Nat → Nat → Nat → Nat → Nat
  | 0, _, _, j => j
  | fuel + 1, num, den, j =>
    if num * 10 ^ j ≥ den then j else scaleUpAux fuel num den (j + 1)

/-- The decimal exponent `n` of the positive rational `num / den`:
`10^(n-1) ≤ num / den < 10^n`. -/
def decExp (num den : Nat) : Int :=
  if num ≥ den then ((natDigits (num / den)).length : Int)
  else 1 - (scaleUpAux (bitLen den + 1) num den 1 : Int)

/-- Whether the decimal `s * 10^(-sh)` rounds to the same Number as `num / den`. -/
def roundsTo (num den s : Nat) (sh : Int) : Bool :=
  decide (roundRat false (if sh ≥ 0 then s else s * 10 ^ (-sh).toNat)
      (if sh ≥ 0 then 10 ^ sh.toNat else 1) = roundRat false num den)

/-- The `k`-digit decimal significand closest to `num / den` among those that
round back to it, with its decimal exponent, if there is one. -/
def digitsAt (num den : Nat) (n0 : Int) (k : Nat) : Option (Nat × Int) :=
  let sh : Int := (k : Int) - n0
  let N := if sh ≥ 0 then num * 10 ^ sh.toNat else num
  let D := if sh ≥ 0 then den else den * 10 ^ (-sh).toNat
  let lo := N / D
  let rem := N % D
  let loOk := roundsTo num den lo sh
  let hiOk := roundsTo num den (lo + 1) sh
  let pick : Option Nat :=
    if loOk && hiOk then
      (if 2 * rem < D then some lo
       else if D < 2 * rem then some (lo + 1)
       else if lo % 2 = 0 then some lo else some (lo + 1))
    else if loOk then some lo
    else if hiOk then some (lo + 1)
    else none
  match pick with
  | none => none
  | some s => if s = 10 ^ k then some (10 ^ (k - 1), n0 + 1) else some (s, n0)

/-- Search for the least number of digits `k` at which `digitsAt` succeeds;
gives `(k, s, n)`. -/
def shortestAux (num den : Nat) (n0 : Int) : Nat → Nat → Nat × Nat × Int
  | 0, k => (k, (if (k : Int) - n0 ≥ 0 then num * 10 ^ ((k : Int) - n0).toNat else num) /
      (if (k : Int) - n0 ≥ 0 then den else den * 10 ^ (n0 - (k : Int)).toNat), n0)
  | fuel + 1, k =>
    match digitsAt num den n0 k with
    | some (s, n) => (k, s, n)
    | none => shortestAux num den n0 fuel (k + 1)

/-- The integers `(k, s, n)` of `Number::toString` for the positive value
`num / den`: `s` has `k` digits, `s * 10^(n-k)` rounds to the value and `k` is
as small as possible. -/
def shortest (num den : Nat) : Nat × Nat × Int :=
  shortestAux num den (decExp num den) 1100 1

/-- The text of a positive Number from its `(k, s, n)`. -/
def renderDigits (k s : Nat) (n : Int) : List Char :=
  let ds := natDigits s
  if (k : Int) ≤ n ∧ n ≤ 21 then ds ++ List.replicate (n - (k : Int)).toNat '0'
  else if 0 < n ∧ n ≤ 21 then ds.take n.toNat ++ '.' :: ds.drop n.toNat
  else if -6 < n ∧ n ≤ 0 then '0' :: '.' :: (List.replicate (-n).toNat '0' ++ ds)
  else
    let ex := (if n - 1 < 0 then '-' else '+') :: natDigits (n - 1).natAbs
    if k = 1 then ds ++ 'e' :: ex
    else ds.take 1 ++ '.' :: (ds.drop 1 ++ 'e' :: ex)

/-- The conversion `String(x)` of a Number (`Number::toString`, radix 10). -/
def numberToString : Num → String
  | Num.nan => "NaN"
  | Num.inf false => "Infinity"
  | Num.inf true => "-Infinity"
  | Num.fin s m e =>
    if m = 0 then "0"
    else
      let t := shortest (fracOf m e).1 (fracOf m e).2
      String.mk ((if s then ['-'] else []) ++ renderDigits t.1 t.2.1 t.2.2)

/-! ## `Number(string)` -/

/-- The characters `StrWhiteSpaceChar` strips: white space and line terminators. -/
def isWhiteSpace (c : Char) : Bool :=
  decide (c.toNat ∈ [9, 10, 11, 12, 13, 32, 160, 5760, 8232, 8233, 8239, 8287, 12288, 65279])
    || (decide (8192 ≤ c.toNat) && decide (c.toNat ≤ 8202))

/-- The string without leading and trailing white space. -/
def trim (cs : List Char) : List Char :=
  ((cs.dropWhile isWhiteSpace).reverse.dropWhile isWhiteSpace).reverse

/-- Whether a character is one of `0`..`9`. -/
def isDigit (c : Char) : Bool := decide (48 ≤ c.toNat) && decide (c.toNat ≤ 57)

/-- Value of a digit in a radix up to 16, if the character is one. -/
def hexVal (c : Char) : Option Nat :=
  if 48 ≤ c.toNat ∧ c.toNat ≤ 57 then some (c.toNat - 48)
  else if 97 ≤ c.toNat ∧ c.toNat ≤ 102 then some (c.toNat - 87)
  else if 65 ≤ c.toNat ∧ c.toNat ≤ 70 then some (c.toNat - 55)
  else none

/-- Value of a digit string in the given radix; `none` for an empty string or
a character that is not a digit of the radix. -/
def radixVal (radix : Nat) (cs : List Char) : Option Nat :=
  if cs = [] then none
  else cs.foldl (fun acc c =>
    match acc, hexVal c with
    | some a, some v => if v < radix then some (a * radix + v) else none
    | _, _ => none) (some 0)

/-- Value of a string of decimal digits. -/
def digitsVal (cs : List Char) : Nat :=
  cs.foldl (fun acc c => acc * 10 + (c.toNat - 48)) 0

/-- The Number of the decimal `ip.fp * 10^ex` with sign `neg`. -/
def decimalValue (neg : Bool) (ip fp : List Char) (ex : Int) : Num :=
  let p : Int := ex - (fp.length : Int)
  if p ≥ 0 then roundRat neg (digitsVal (ip ++ fp) * 10 ^ p.toNat) 1
  else roundRat neg (digitsVal (ip ++ fp)) (10 ^ (-p).toNat)

/-- The value of a `StrUnsignedDecimalLiteral` with sign `neg`, `NaN` when the
text is not one. -/
def parseUnsigned (neg : Bool) (cs : List Char) : Num :=
  if cs = ['I', 'n', 'f', 'i', 'n', 'i', 't', 'y'] then Num.inf neg
  else
    let ip := cs.takeWhile isDigit
    let rest1 := cs.dropWhile isDigit
    let fp := match rest1 with
      | '.' :: r => r.takeWhile isDigit
      | _ => []
    let rest2 := match rest1 with
      | '.' :: r => r.dropWhile isDigit
      | _ => rest1
    if ip = [] ∧ fp = [] then Num.nan
    else
      match rest2 with
      | [] => decimalValue neg ip fp 0
      | c :: r =>
        if c = 'e' ∨ c = 'E' then
          let esign := match r with
            | '-' :: _ => true
            | _ => false
          let ed := match r with
            | '+' :: d => d
            | '-' :: d => d
            | d => d
          if ed ≠ [] ∧ ed.all isDigit = true then
            decimalValue neg ip fp (if esign then -(digitsVal ed : Int) else (digitsVal ed : Int))
          else Num.nan
        else Num.nan

/-- The value of a `StringNumericLiteral` given without surrounding white space. -/
def parseNumeric (cs : List Char) : Num :=
  match cs with
  | [] => Num.fin false 0 0
  | '0' :: 'x' :: r | '0' :: 'X' :: r =>
    match radixVal 16 r with
    | some v => roundRat false v 1
    | none => Num.nan
  | '0' :: 'o' :: r | '0' :: 'O' :: r =>
    match radixVal 8 r with
    | some v => roundRat false v 1
    | none => Num.nan
  | '0' :: 'b' :: r | '0' :: 'B' :: r =>
    match radixVal 2 r with
    | some v => roundRat false v 1
    | none => Num.nan
  | '+' :: r => parseUnsigned false r
  | '-' :: r => parseUnsigned true r
  | _ => parseUnsigned false cs

/-- The conversion `Number(value)` of a string (`StringToNumber`). -/
def toNumber (value : String) : Num := parseNumeric (trim value.data)

/-! ## `toLocaleString('en-US')` -/

/-- Insert `,` after every third digit of a reversed digit string. -/
def groupRev : List Char → List Char
  | a :: b :: c :: d :: rest => a :: b :: c :: ',' :: groupRev (d :: rest)
  | l => l

/-- Group the digits of an integer in threes from the right. -/
def groupThousands (ds : List Char) : List Char := (groupRev ds.reverse).reverse

/-- The fraction digits of `f / 1000` (`f < 1000`) without trailing zeros. -/
def fractionDigits (f : Nat) : List Char :=
  if f = 0 then []
  else if f % 100 = 0 then [digitChar (f / 100)]
  else if f % 10 = 0 then [digitChar (f / 100), digitChar (f / 10 % 10)]
  else [digitChar (f / 100), digitChar (f / 10 % 10), digitChar (f % 10)]

/-- The decimal value `s * 10^(n-k)` of the shortest round-trip digits of the
positive Number `m * 2^e`, as a fraction `(numerator, denominator)`. -/
def shortestFrac (m : Nat) (e : Int) : Nat × Nat :=
  let t := shortest (fracOf m e).1 (fracOf m e).2
  if t.2.2 - (t.1 : Int) ≥ 0 then (t.2.1 * 10 ^ (t.2.2 - (t.1 : Int)).toNat, 1)
  else (t.2.1, 10 ^ ((t.1 : Int) - t.2.2).toNat)

/-- The method `x.toLocaleString('en-US')` with default options: the shortest
round-trip decimal digits of `x` (the digits of `String(x)`), rounded half away
from zero to at most three fraction digits, without trailing zeros, the integer
digits grouped in threes. -/
def toLocaleString : Num → String
  | Num.nan => "NaN"
  | Num.inf false => "∞"
  | Num.inf true => "-∞"
  | Num.fin s m e =>
    let n := if m = 0 then 0
      else (2 * 1000 * (shortestFrac m e).1 + (shortestFrac m e).2) / (2 * (shortestFrac m e).2)
    let fd := fractionDigits (n % 1000)
    String.mk ((if s then ['-'] else []) ++ groupThousands (natDigits (n / 1000)) ++
      (if fd = [] then [] else '.' :: fd))

end JS

/-! ## The calculator -/

/-- An entry of the `BUTTONS` table: `{ label, type, value, action }`. -/
structure Button where
  label : String
  type : String
  value : Option String
  action : Option String
  deriving DecidableEq, Repr

/-- The keypad, in the order of the source table. -/
def BUTTONS : List Button :=
  [ Button.mk "AC" "action" none (some "clear"),
    Button.mk "⌫" "action" none (some "backspace"),
    Button.mk "%" "action" none (some "percent"),
    Button.mk "÷" "operator" (some "/") none,
    Button.mk "7" "number" (some "7") none,
    Button.mk "8" "number" (some "8") none,
    Button.mk "9" "number" (some "9") none,
    Button.mk "×" "operator" (some "*") none,
    Button.mk "4" "number" (some "4") none,
    Button.mk "5" "number" (some "5") none,
    Button.mk "6" "number" (some "6") none,
    Button.mk "−" "operator" (some "-") none,
    Button.mk "1" "number" (some "1") none,
    Button.mk "2" "number" (some "2") none,
    Button.mk "3" "number" (some "3") none,
    Button.mk "+" "operator" (some "+") none,
    Button.mk "0" "number" (some "0") none,
    Button.mk "." "decimal" (some ".") none,
    Button.mk "=" "action" none (some "equals") ]

/-- The constant `HISTORY_LIMIT`. -/
def HISTORY_LIMIT : Nat := 10

/-- The pieces of `value.split('.')`. -/
def splitDot : List Char → List (List Char)
  | [] => [[]]
  | c :: cs =>
    if c = '.' then [] :: splitDot cs
    else
      match splitDot cs with
      | [] => [[c]]
      | p :: ps => (c :: p) :: ps

/-- The function `formatNumber(value)`. -/
def formatNumber (value : String) : String :=
  if value = "Error" ∨ value = "NaN" ∨ value = "-NaN" then value
  else if !JS.isFinite (JS.toNumber value) then value
  else
    let intPart := String.mk ((splitDot value.data).headD [])
    let decimalPart : Option (List Char) := (splitDot value.data).tail.head?
    let formattedInt := JS.toLocaleString (JS.toNumber intPart)
    if value.data.getLast? = some '.' then formattedInt ++ "."
    else
      match decimalPart with
      | none => formattedInt
      | some dp => if dp = [] then formattedInt else formattedInt ++ "." ++ String.mk dp

/-- The function `performCalculation(previous, current, operator)`. -/
def performCalculation (previous current operator : String) : String :=
  let a := JS.toNumber previous
  let b := JS.toNumber current
  if !JS.isFinite a || !JS.isFinite b then "Error"
  else if operator = "+" then JS.numberToString (JS.add a b)
  else if operator = "-" then JS.numberToString (JS.sub a b)
  else if operator = "*" then JS.numberToString (JS.mul a b)
  else if operator = "/" then
    (if JS.isZero b then "Error" else JS.numberToString (JS.div a b))
  else current

/-- The component state: the five `useState` cells. -/
structure CalcState where
  currentValue : String
  previousValue : Option String
  operator : Option String
  overwrite : Bool
  history : List String
  deriving DecidableEq, Repr

/-- The state at mount. -/
def initialState : CalcState := CalcState.mk "0" none none false []

/-- JavaScript truthiness of a nullable string: neither `null` nor empty. -/
def truthy : Option String → Bool
  | none => false
  | some v => decide (v ≠ "")

/-- The symbol shown for an operator:
`operator === '/' ? '÷' : operator === '*' ? '×' : operator === '-' ? '−' : operator`. -/
def opSymbol (operator : String) : String :=
  if operator = "/" then "÷"
  else if operator = "*" then "×"
  else if operator = "-" then "−"
  else operator

/-- The updater of `pushHistory(entry)`: `[entry, ...prev.slice(0, HISTORY_LIMIT - 1)]`. -/
def pushHistory (entry : String) (prev : List String) : List String :=
  entry :: prev.take (HISTORY_LIMIT - 1)

/-- The handler `clearAll()`. -/
def clearAll (s : CalcState) : CalcState :=
  CalcState.mk "0" none none false s.history

/-- The handler `handleNumber(digit)`. -/
def handleNumber (s : CalcState) (digit : String) : CalcState :=
  if s.currentValue = "Error" ∨ s.overwrite = true then
    CalcState.mk digit s.previousValue s.operator false s.history
  else if s.currentValue = "0" then
    CalcState.mk digit s.previousValue s.operator s.overwrite s.history
  else
    CalcState.mk (s.currentValue ++ digit) s.previousValue s.operator s.overwrite s.history

/-- The handler `handleDecimal()`. -/
def handleDecimal (s : CalcState) : CalcState :=
  if s.currentValue = "Error" ∨ s.overwrite = true then
    CalcState.mk "0." s.previousValue s.operator false s.history
  else if '.' ∉ s.currentValue.data then
    CalcState.mk (s.currentValue ++ ".") s.previousValue s.operator s.overwrite s.history
  else s

/-- The handler `handleOperator(nextOperator)`. -/
def handleOperator (s : CalcState) (nextOperator : String) : CalcState :=
  if s.currentValue = "Error" then s
  else
    match s.previousValue, s.operator with
    | some previousValue, some operator =>
      if previousValue ≠ "" ∧ operator ≠ "" ∧ s.overwrite = false then
        let result := performCalculation previousValue s.currentValue operator
        CalcState.mk result (if result = "Error" then none else some result)
          (if result = "Error" then none else some nextOperator) true s.history
      else CalcState.mk s.currentValue (some s.currentValue) (some nextOperator) true s.history
    | _, _ => CalcState.mk s.currentValue (some s.currentValue) (some nextOperator) true s.history

/-- The text of the history entry built by `handleEquals`. -/
def historyEntry (previousValue currentValue operator result : String) : String :=
  formatNumber previousValue ++ " " ++ opSymbol operator ++ " " ++ formatNumber currentValue
    ++ " = " ++ formatNumber result

/-- The handler `handleEquals()`. -/
def handleEquals (s : CalcState) : CalcState :=
  match s.operator, s.previousValue with
  | some operator, some previousValue =>
    if operator = "" ∨ previousValue = "" ∨ s.overwrite = true then s
    else
      let result := performCalculation previousValue s.currentValue operator
      CalcState.mk result none none true
        (pushHistory (historyEntry previousValue s.currentValue operator result) s.history)
  | _, _ => s

/-- The handler `handlePercent()`. -/
def handlePercent (s : CalcState) : CalcState :=
  if s.currentValue = "Error" then s
  else
    CalcState.mk (JS.numberToString (JS.div (JS.toNumber s.currentValue) (JS.roundRat false 100 1)))
      s.previousValue s.operator s.overwrite s.history

/-- The handler `handleBackspace()`. -/
def handleBackspace (s : CalcState) : CalcState :=
  if s.currentValue = "Error" ∨ s.overwrite = true then
    CalcState.mk "0" s.previousValue s.operator false s.history
  else if s.currentValue.length ≤ 1 then
    CalcState.mk "0" s.previousValue s.operator s.overwrite s.history
  else
    CalcState.mk (String.mk s.currentValue.data.dropLast) s.previousValue s.operator
      s.overwrite s.history

/-- The dispatcher `handleButtonPress(button)`.  Every `number` and `operator`
button of `BUTTONS` carries a `value`; a button without one leaves the state
as it is. -/
def handleButtonPress (s : CalcState) (button : Button) : CalcState :=
  if button.type = "number" then
    (match button.value with
     | some v => handleNumber s v
     | none => s)
  else if button.type = "decimal" then handleDecimal s
  else if button.type = "operator" then
    (match button.value with
     | some v => handleOperator s v
     | none => s)
  else if button.type = "action" then
    (if button.action = some "clear" then clearAll s
     else if button.action = some "backspace" then handleBackspace s
     else if button.action = some "percent" then handlePercent s
     else if button.action = some "equals" then handleEquals s
     else s)
  else s

/-! ## Input events -/

/-- The four operators of the keypad. -/
inductive Op where
  | add | sub | mul | div
  deriving DecidableEq, Repr

/-- The `value` of an operator button. -/
def Op.value : Op → String
  | Op.add => "+"
  | Op.sub => "-"
  | Op.mul => "*"
  | Op.div => "/"

/-- The `label` of an operator button. -/
def Op.label : Op → String
  | Op.add => "+"
  | Op.sub => "−"
  | Op.mul => "×"
  | Op.div => "÷"

/-- The symbolic input events, one for each key. -/
inductive Event where
  | clear
  | digit (d : Fin 10)
  | decimal
  | operator (op : Op)
  | backspace
  | percent
  | equals
  deriving DecidableEq, Repr

/-- The text of a digit key. -/
def digitStr (d : Fin 10) : String := String.mk [JS.digitChar d.val]

/-- The button an event presses. -/
def Event.button : Event → Button
  | Event.clear => Button.mk "AC" "action" none (some "clear")
  | Event.digit d => Button.mk (digitStr d) "number" (some (digitStr d)) none
  | Event.decimal => Button.mk "." "decimal" (some ".") none
  | Event.operator op => Button.mk op.label "operator" (some op.value) none
  | Event.backspace => Button.mk "⌫" "action" none (some "backspace")
  | Event.percent => Button.mk "%" "action" none (some "percent")
  | Event.equals => Button.mk "=" "action" none (some "equals")

/-- One transition: press the button of the event. -/
def step (s : CalcState) (e : Event) : CalcState := handleButtonPress s e.button

/-- The state after a sequence of events, first event first. -/
def run (s : CalcState) (es : List Event) : CalcState := es.foldl step s

/-- States reachable from the state at mount by pressing buttons of `BUTTONS`. -/
inductive Reachable : CalcState → Prop where
  | init : Reachable initialState
  | press (s : CalcState) (b : Button) : Reachable s → b ∈ BUTTONS →
      Reachable (handleButtonPress s b)

/-! ## Predicates used in the statements -/

/-- Whether a text is non-empty and starts with a digit, `-`, `N` or `I`. -/
def headOK (v : String) : Bool :=
  match v.data with
  | [] => false
  | c :: _ => JS.isDigit c || c == '-' || c == 'N' || c == 'I'

/-- The invariant kept by every button press: the current value is `Error` or
starts like a Number's text; an `Error` has nothing pending and `overwrite`
set; the pending operand and operator are both `null` or both truthy; the
history holds at most `HISTORY_LIMIT` entries. -/
structure CalcInv (s : CalcState) : Prop where
  head : s.currentValue = "Error" ∨ headOK s.currentValue = true
  error : s.currentValue = "Error" →
    s.previousValue = none ∧ s.operator = none ∧ s.overwrite = true
  pending : (s.previousValue = none ∧ s.operator = none) ∨
    (truthy s.previousValue = true ∧ truthy s.operator = true)
  history : s.history.length ≤ HISTORY_LIMIT

/-- The text of a sequence of digit keys. -/
def digitsText (ds : List (Fin 10)) : List Char := ds.map (fun d => JS.digitChar d.val)

/-- A digit string without its leading zeros, `0` when nothing is left. -/
def stripLeadingZeros (cs : List Char) : List Char :=
  if cs.dropWhile (fun c => c == '0') = [] then ['0'] else cs.dropWhile (fun c => c == '0')

/-- Whether a text is a partial decimal number as typed on the keypad:
non-empty, made of the digits 0-9 and `.` only, with at most one `.`. -/
def isPartialDecimal (v : String) : Bool :=
  decide (v ≠ "") && v.data.all (fun c => JS.isDigit c || c == '.')
    && decide (v.data.count '.' ≤ 1)

/-- The events that only edit the current value: Clear, Digit, Decimal, Backspace. -/
def Event.isEntry : Event → Bool
  | Event.clear => true
  | Event.digit _ => true
  | Event.decimal => true
  | Event.backspace => true
  | _ => false

/-- The guard of `handleEquals`: a pending operator and operand with a freshly
typed right operand. -/
def equalsFires (s : CalcState) : Bool :=
  truthy s.operator && truthy s.previousValue && !s.overwrite

/-- The history entry `=` builds in state `s` when it fires. -/
def equalsEntry (s : CalcState) : String :=
  match s.operator, s.previousValue with
  | some operator, some previousValue =>
    historyEntry previousValue s.currentValue operator
      (performCalculation previousValue s.currentValue operator)
  | _, _ => ""

/-- The entries of the complete equals-operations of a run, oldest first. -/
def producedEntries : CalcState → List Event → List String
  | _, [] => []
  | s, e :: es =>
    if e = Event.equals ∧ equalsFires s = true then
      equalsEntry s :: producedEntries (step s e) es
    else producedEntries (step s e) es

/-- The keys of the sum `a + 1 =`, for a one-digit or two-digit `a`. -/
def sumKeys (tens units : Fin 10) : List Event :=
  (if tens = 0 then [] else [Event.digit tens]) ++
    [Event.digit units, Event.operator Op.add, Event.digit 1, Event.equals]

/-- Twelve complete equals-operations: `1 + 1 =`, `2 + 1 =`, ..., `12 + 1 =`. -/
def twelveSums : List Event :=
  sumKeys 0 1 ++ sumKeys 0 2 ++ sumKeys 0 3 ++ sumKeys 0 4 ++ sumKeys 0 5 ++ sumKeys 0 6 ++
    sumKeys 0 7 ++ sumKeys 0 8 ++ sumKeys 0 9 ++ sumKeys 1 0 ++ sumKeys 1 1 ++ sumKeys 1 2

/-- The decimal representation of an integer: an optional `-` and the digits
of its absolute value. -/
def intText (z : Int) : String :=
  String.mk ((if z < 0 then ['-'] else []) ++ JS.natDigits z.natAbs)

/-- The Number `v` is the integer `z`: a finite value `(-1)^s * m * 2^e` with
`e ≤ 0` and `(-1)^s * m = z * 2^(-e)`. -/
def Represents (v : JS.Num) (z : Int) : Prop :=
  ∃ s m e, v = JS.Num.fin s m e ∧ e ≤ 0 ∧ JS.signed s m = z * 2 ^ (-e).toNat

/-- A text without its `,` characters. -/
def removeCommas (v : String) : String :=
  String.mk (v.data.filter (fun c => c != ','))

/-- A decimal string: the digits of `n` without superfluous leading zeros,
optionally followed by `.` and the fraction digits `frac`. -/
def decimalText (n : Nat) (frac : Option (List Char)) : String :=
  String.mk (JS.natDigits n ++
    (match frac with
     | none => []
     | some fp => '.' :: fp))

/-- The binary exponent `roundRat` settles on for `n / d`. -/
def roundExp (n d : Nat) : Int :=
  if (if (JS.scaledDiv n d ((JS.bitLen n : Int) - (JS.bitLen d : Int) - 53)).1 ≥ 2 ^ 53
        then (JS.bitLen n : Int) - (JS.bitLen d : Int) - 53 + 1
        else (JS.bitLen n : Int) - (JS.bitLen d : Int) - 53) < -1074
  then -1074
  else (if (JS.scaledDiv n d ((JS.bitLen n : Int) - (JS.bitLen d : Int) - 53)).1 ≥ 2 ^ 53
        then (JS.bitLen n : Int) - (JS.bitLen d : Int) - 53 + 1
        else (JS.bitLen n : Int) - (JS.bitLen d : Int) - 53)

/-- The last step of `roundRat`: round the quotient `q` with remainder `r` of
the divisor `den` to nearest, ties to even, and pack it with the exponent `e`. -/
def roundPack (neg : Bool) (q r den : Nat) (e : Int) : JS.Num :=
  if (if (if (decide (den < 2 * r) || (decide (2 * r = den) && decide (q % 2 = 1))) = true
        then q + 1 else q) = 2 ^ 53 then 2 ^ 52
      else (if (decide (den < 2 * r) || (decide (2 * r = den) && decide (q % 2 = 1))) = true
        then q + 1 else q)) = 0
  then JS.Num.fin neg 0 0
  else if (if (if (decide (den < 2 * r) || (decide (2 * r = den) && decide (q % 2 = 1))) = true
        then q + 1 else q) = 2 ^ 53 then e + 1 else e) > 971
  then JS.Num.inf neg
  else JS.Num.fin neg
    (if (if (decide (den < 2 * r) || (decide (2 * r = den) && decide (q % 2 = 1))) = true
        then q + 1 else q) = 2 ^ 53 then 2 ^ 52
      else (if (decide (den < 2 * r) || (decide (2 * r = den) && decide (q % 2 = 1))) = true
        then q + 1 else q))
    (if (if (decide (den < 2 * r) || (decide (2 * r = den) && decide (q % 2 = 1))) = true
        then q + 1 else q) = 2 ^ 53 then e + 1 else e)

/-- The characters of a Number's text: the digits, `.`, the signs, `e`, and the
letters of `Infinity` and `NaN`. -/
def isNumberChar (c : Char) : Bool :=
  JS.isDigit c ||
    decide (c ∈ ['.', '-', '+', 'e', 'I', 'n', 'f', 'i', 't', 'y', 'N', 'a'])

/-- Whether a text is made of the characters of a Number's text only and has
at most one `.`. -/
def isNumberText (v : String) : Bool :=
  v.data.all isNumberChar && decide (v.data.count '.' ≤ 1)

/-! ## The dispatcher on each event -/

theorem step_clear (s : CalcState) : step s Event.clear = clearAll s := rfl

theorem step_digit (s : CalcState) (d : Fin 10) :
    step s (Event.digit d) = handleNumber s (digitStr d) := rfl

theorem step_decimal (s : CalcState) : step s Event.decimal = handleDecimal s := rfl

theorem step_operator (s : CalcState) (op : Op) :
    step s (Event.operator op) = handleOperator s op.value := rfl

theorem step_backspace (s : CalcState) : step s Event.backspace = handleBackspace s := rfl

theorem step_percent (s : CalcState) : step s Event.percent = handlePercent s := rfl

theorem step_equals (s : CalcState) : step s Event.equals = handleEquals s := rfl

theorem button_mem (e : Event) : e.button ∈ BUTTONS := by
  cases e with
  | digit d => fin_cases d <;> decide
  | operator op => cases op <;> decide
  | _ => decide

theorem mem_buttons (b : Button) (h : b ∈ BUTTONS) : ∃ e : Event, e.button = b := by
  simp only [BUTTONS, List.mem_cons, List.mem_singleton, List.not_mem_nil, or_false] at h
  rcases h with h | h | h | h | h | h | h | h | h | h | h | h | h | h | h | h | h | h | h <;> subst h
  · exact ⟨Event.clear, rfl⟩
  · exact ⟨Event.backspace, rfl⟩
  · exact ⟨Event.percent, rfl⟩
  · exact ⟨Event.operator Op.div, rfl⟩
  · exact ⟨Event.digit 7, rfl⟩
  · exact ⟨Event.digit 8, rfl⟩
  · exact ⟨Event.digit 9, rfl⟩
  · exact ⟨Event.operator Op.mul, rfl⟩
  · exact ⟨Event.digit 4, rfl⟩
  · exact ⟨Event.digit 5, rfl⟩
  · exact ⟨Event.digit 6, rfl⟩
  · exact ⟨Event.operator Op.sub, rfl⟩
  · exact ⟨Event.digit 1, rfl⟩
  · exact ⟨Event.digit 2, rfl⟩
  · exact ⟨Event.digit 3, rfl⟩
  · exact ⟨Event.operator Op.add, rfl⟩
  · exact ⟨Event.digit 0, rfl⟩
  · exact ⟨Event.decimal, rfl⟩
  · exact ⟨Event.equals, rfl⟩

theorem run_append (s : CalcState) (es fs : List Event) :
    run s (es ++ fs) = run (run s es) fs := by
  simp [run, List.foldl_append]

theorem run_cons (s : CalcState) (e : Event) (es : List Event) :
    run s (e :: es) = run (step s e) es := rfl

theorem run_nil (s : CalcState) : run s [] = s := rfl

theorem reachable_run (es : List Event) : Reachable (run initialState es) := by
  induction es using List.reverseRecOn with
  | nil => exact Reachable.init
  | append_singleton es e ih =>
    rw [run_append]
    exact Reachable.press _ _ ih (button_mem e)

theorem reachable_iff (s : CalcState) : Reachable s ↔ ∃ es, s = run initialState es := by
  constructor
  · intro h
    induction h with
    | init => exact ⟨[], rfl⟩
    | press s b _ hb ih =>
      obtain ⟨es, rfl⟩ := ih
      obtain ⟨e, rfl⟩ := mem_buttons b hb
      exact ⟨es ++ [e], by rw [run_append]; rfl⟩
  · rintro ⟨es, rfl⟩
    exact reachable_run es

/-! ## Evaluation at an `=` press -/

theorem handleEquals_fires (s : CalcState) (a op : String)
    (hp : s.previousValue = some a) (ho : s.operator = some op)
    (ha : a ≠ "") (hop : op ≠ "") (hw : s.overwrite = false) :
    handleEquals s = CalcState.mk (performCalculation a s.currentValue op) none none true
      (pushHistory (historyEntry a s.currentValue op (performCalculation a s.currentValue op))
        s.history) := by
  simp [handleEquals, hp, ho, ha, hop, hw]

theorem pushHistory_eq_take (entry : String) (prev : List String) :
    pushHistory entry prev = (entry :: prev).take 10 := rfl

/-- C1: in a state with a pending operand `a` and a pending operator `op`
(present in the sense the code tests: not `null` and not the empty string)
and `overwrite` false, `=` gives `currentValue = performCalculation a
currentValue op`, no pending operand or operator, `overwrite = true` and as
history the first 10 elements of the entry
`"<format a> <symbol> <format currentValue> = <format result>"` followed by the
old history; the symbol is `+`, `−`, `×`, `÷` for `+`, `-`, `*`, `/`. -/
theorem equals_evaluates_and_records (s : CalcState) (a op : String)
    (hp : s.previousValue = some a) (ho : s.operator = some op)
    (ha : a ≠ "") (hop : op ≠ "") (hw : s.overwrite = false) :
    step s Event.equals =
        CalcState.mk (performCalculation a s.currentValue op) none none true
          (List.take 10
            ((formatNumber a ++ " " ++ opSymbol op ++ " " ++ formatNumber s.currentValue
                ++ " = " ++ formatNumber (performCalculation a s.currentValue op))
              :: s.history))
      ∧ opSymbol "+" = "+" ∧ opSymbol "-" = "−" ∧ opSymbol "*" = "×" ∧ opSymbol "/" = "÷" := by
  refine ⟨?_, by decide, by decide, by decide, by decide⟩
  rw [step_equals, handleEquals_fires s a op hp ho ha hop hw]
  rfl

/-- C1 at pending operator `+`, pending operand `2`, current operand `3`:
the result is `5` and the newest history entry is `2 + 3 = 5`. -/
theorem equals_evaluates_and_records_witness :
    (step (CalcState.mk "3" (some "2") (some "+") false []) Event.equals).currentValue = "5"
      ∧ (step (CalcState.mk "3" (some "2") (some "+") false []) Event.equals).history.head?
          = some "2 + 3 = 5"
      ∧ (step (CalcState.mk "3" (some "2") (some "+") false []) Event.equals).previousValue = none
      ∧ (step (CalcState.mk "3" (some "2") (some "+") false []) Event.equals).operator = none := by
  rw [(equals_evaluates_and_records (CalcState.mk "3" (some "2") (some "+") false []) "2" "+"
    rfl rfl (by decide) (by decide) rfl).1]
  decide!

/-! ## Two keypad scenarios -/

theorem run_eight_div_zero (s : CalcState) :
    run s [Event.clear, Event.digit 8, Event.operator Op.div, Event.digit 0, Event.equals] =
      CalcState.mk "Error" none none true (pushHistory "8 ÷ 0 = Error" s.history) := by
  have e1 : performCalculation "8" "0" "/" = "Error" := by decide!
  have e2 : historyEntry "8" "0" "/" "Error" = "8 ÷ 0 = Error" := by decide!
  have h1 : handleNumber (clearAll s) "8" = CalcState.mk "8" none none false s.history := rfl
  have h2 : handleOperator (CalcState.mk "8" none none false s.history) "/"
      = CalcState.mk "8" (some "8") (some "/") true s.history := rfl
  have h3 : handleNumber (CalcState.mk "8" (some "8") (some "/") true s.history) "0"
      = CalcState.mk "0" (some "8") (some "/") false s.history := rfl
  show handleEquals (handleNumber (handleOperator (handleNumber (clearAll s) "8") "/") "0") = _
  rw [h1, h2, h3, handleEquals_fires _ "8" "/" rfl rfl (by decide) (by decide) rfl]
  simp only [e1, e2]

theorem run_five_plus_three (s : CalcState) :
    run s [Event.clear, Event.digit 5, Event.operator Op.add, Event.digit 3, Event.equals] =
      CalcState.mk "8" none none true (pushHistory "5 + 3 = 8" s.history) := by
  have e1 : performCalculation "5" "3" "+" = "8" := by decide!
  have e2 : historyEntry "5" "3" "+" "8" = "5 + 3 = 8" := by decide!
  have h1 : handleNumber (clearAll s) "5" = CalcState.mk "5" none none false s.history := rfl
  have h2 : handleOperator (CalcState.mk "5" none none false s.history) "+"
      = CalcState.mk "5" (some "5") (some "+") true s.history := rfl
  have h3 : handleNumber (CalcState.mk "5" (some "5") (some "+") true s.history) "3"
      = CalcState.mk "3" (some "5") (some "+") false s.history := rfl
  show handleEquals (handleNumber (handleOperator (handleNumber (clearAll s) "5") "+") "3") = _
  rw [h1, h2, h3, handleEquals_fires _ "5" "+" rfl rfl (by decide) (by decide) rfl]
  simp only [e1, e2]

/-- C2, as the claim states it, fails: from the state at mount the sequence
Clear, 8, ÷, 0, = ends in `Error` with nothing pending, but the history has
gained the entry `8 ÷ 0 = Error`. -/
theorem div_zero_scenario_pushes_history :
    (run initialState
        [Event.clear, Event.digit 8, Event.operator Op.div, Event.digit 0, Event.equals]).currentValue
        = "Error"
      ∧ (run initialState
        [Event.clear, Event.digit 8, Event.operator Op.div, Event.digit 0, Event.equals]).history
        = ["8 ÷ 0 = Error"]
      ∧ (run initialState
        [Event.clear, Event.digit 8, Event.operator Op.div, Event.digit 0, Event.equals]).history
        ≠ initialState.history := by
  rw [run_eight_div_zero]
  decide

/-- C2, amended: from every state the sequence Clear, 8, ÷, 0, = gives
`currentValue = "Error"`, no pending operand or operator, `overwrite = true`,
and as history the first 10 elements of `8 ÷ 0 = Error` followed by the old
history. -/
theorem div_zero_scenario (s : CalcState) :
    run s [Event.clear, Event.digit 8, Event.operator Op.div, Event.digit 0, Event.equals] =
      CalcState.mk "Error" none none true (List.take 10 ("8 ÷ 0 = Error" :: s.history)) :=
  run_eight_div_zero s

/-- C10: from every state the sequence Clear, 5, +, 3, = gives
`currentValue = "8"` with `5 + 3 = 8` as the newest history entry, and from the
state at mount the history is exactly `["5 + 3 = 8"]`. -/
theorem five_plus_three_scenario (s : CalcState) :
    (run s [Event.clear, Event.digit 5, Event.operator Op.add, Event.digit 3,
        Event.equals]).currentValue = "8"
      ∧ (run s [Event.clear, Event.digit 5, Event.operator Op.add, Event.digit 3,
        Event.equals]).history.head? = some "5 + 3 = 8"
      ∧ (run initialState [Event.clear, Event.digit 5, Event.operator Op.add, Event.digit 3,
        Event.equals]).history = ["5 + 3 = 8"] := by
  rw [run_five_plus_three, run_five_plus_three]
  exact ⟨rfl, rfl, rfl⟩

/-! ## The first character of a Number's text -/

theorem isDigit_digitChar (d : Nat) : JS.isDigit (JS.digitChar d) = true := by
  unfold JS.digitChar
  split <;> decide

theorem natDigitsAux_head (fuel n : Nat) :
    ∃ c cs, JS.natDigitsAux (fuel + 1) n = c :: cs ∧ JS.isDigit c = true := by
  induction fuel generalizing n with
  | zero =>
    unfold JS.natDigitsAux
    split
    · exact ⟨_, [], rfl, isDigit_digitChar n⟩
    · exact ⟨_, [], rfl, isDigit_digitChar (n % 10)⟩
  | succ fuel ih =>
    unfold JS.natDigitsAux
    split
    · exact ⟨_, [], rfl, isDigit_digitChar n⟩
    · obtain ⟨c, cs, h, hc⟩ := ih (n / 10)
      exact ⟨c, cs ++ [JS.digitChar (n % 10)], by rw [h]; rfl, hc⟩

theorem natDigits_head (n : Nat) :
    ∃ c cs, JS.natDigits n = c :: cs ∧ JS.isDigit c = true :=
  natDigitsAux_head n n

theorem renderDigits_head (k s : Nat) (n : Int) :
    ∃ c cs, JS.renderDigits k s n = c :: cs ∧ JS.isDigit c = true := by
  obtain ⟨c, cs, h, hc⟩ := natDigits_head s
  unfold JS.renderDigits
  simp only [h]
  split
  · exact ⟨c, _, rfl, hc⟩
  · split
    · rename_i h2
      obtain ⟨m, hm⟩ : ∃ m, n.toNat = m + 1 := ⟨n.toNat - 1, by omega⟩
      rw [hm]
      exact ⟨c, _, rfl, hc⟩
    · split
      · exact ⟨'0', _, rfl, by decide⟩
      · split
        · exact ⟨c, _, rfl, hc⟩
        · exact ⟨c, _, rfl, hc⟩

theorem numberToString_headOK (x : JS.Num) : headOK (JS.numberToString x) = true := by
  cases x with
  | nan => decide
  | inf s => cases s <;> decide
  | fin s m e =>
    simp only [JS.numberToString]
    split
    · decide
    · obtain ⟨c, cs, h, hc⟩ := renderDigits_head
        (JS.shortest (JS.fracOf m e).1 (JS.fracOf m e).2).1
        (JS.shortest (JS.fracOf m e).1 (JS.fracOf m e).2).2.1
        (JS.shortest (JS.fracOf m e).1 (JS.fracOf m e).2).2.2
      cases s
      · simp [h, headOK, hc]
      · simp [headOK]

theorem headOK_ne_error (v : String) (h : headOK v = true) : v ≠ "Error" := by
  rintro rfl
  exact absurd h (by decide)

theorem headOK_ne_empty (v : String) (h : headOK v = true) : v ≠ "" := by
  rintro rfl
  exact absurd h (by decide)

theorem headOK_append (v w : String) (h : headOK v = true) : headOK (v ++ w) = true := by
  unfold headOK at h ⊢
  rw [String.data_append]
  cases hv : v.data with
  | nil => rw [hv] at h; exact absurd h (by decide)
  | cons c cs => rw [hv] at h; exact h

theorem headOK_dropLast (v : String) (h : headOK v = true) (hl : ¬ v.length ≤ 1) :
    headOK (String.mk v.data.dropLast) = true := by
  unfold headOK at h ⊢
  have hlen : v.length = v.data.length := rfl
  cases hv : v.data with
  | nil => rw [hv] at h; exact absurd h (by decide)
  | cons c cs =>
    rw [hv] at h
    cases cs with
    | nil => rw [hlen, hv] at hl; exact absurd (by simp) hl
    | cons c2 cs2 => exact h

theorem headOK_digitStr (d : Fin 10) : headOK (digitStr d) = true := by
  fin_cases d <;> decide

/-! ## The invariant of the reducer -/

theorem performCalculation_head (a b op : String)
    (hb : b = "Error" ∨ headOK b = true) :
    performCalculation a b op = "Error" ∨ headOK (performCalculation a b op) = true := by
  unfold performCalculation
  simp only
  split
  · exact Or.inl rfl
  · split
    · exact Or.inr (numberToString_headOK _)
    · split
      · exact Or.inr (numberToString_headOK _)
      · split
        · exact Or.inr (numberToString_headOK _)
        · split
          · split
            · exact Or.inl rfl
            · exact Or.inr (numberToString_headOK _)
          · exact hb

theorem truthy_some (v : String) (h : v ≠ "") : truthy (some v) = true := by
  simp [truthy, h]

theorem op_value_ne_empty (op : Op) : op.value ≠ "" := by
  cases op <;> decide

theorem headOK_zero : headOK "0" = true := by decide

theorem headOK_zero_dot : headOK "0." = true := by decide

theorem inv_initial : CalcInv initialState :=
  ⟨Or.inr headOK_zero, fun h => absurd h (headOK_ne_error _ headOK_zero), Or.inl ⟨rfl, rfl⟩,
    by decide⟩

theorem inv_clearAll (s : CalcState) (h : CalcInv s) : CalcInv (clearAll s) :=
  ⟨Or.inr headOK_zero, fun h => absurd h (headOK_ne_error _ headOK_zero), Or.inl ⟨rfl, rfl⟩,
    h.history⟩

theorem inv_handleNumber (s : CalcState) (d : Fin 10) (h : CalcInv s) :
    CalcInv (handleNumber s (digitStr d)) := by
  have hd := headOK_digitStr d
  unfold handleNumber
  split
  · exact ⟨Or.inr hd, fun h => absurd h (headOK_ne_error _ hd), h.pending, h.history⟩
  · rename_i h1
    have hne : s.currentValue ≠ "Error" := fun h2 => h1 (Or.inl h2)
    have hok : headOK s.currentValue = true := h.head.resolve_left hne
    split
    · exact ⟨Or.inr hd, fun h => absurd h (headOK_ne_error _ hd), h.pending, h.history⟩
    · have := headOK_append s.currentValue (digitStr d) hok
      exact ⟨Or.inr this, fun h => absurd h (headOK_ne_error _ this), h.pending, h.history⟩

theorem inv_handleDecimal (s : CalcState) (h : CalcInv s) : CalcInv (handleDecimal s) := by
  unfold handleDecimal
  split
  · exact ⟨Or.inr headOK_zero_dot, fun h => absurd h (headOK_ne_error _ headOK_zero_dot),
      h.pending, h.history⟩
  · rename_i h1
    have hne : s.currentValue ≠ "Error" := fun h2 => h1 (Or.inl h2)
    have hok : headOK s.currentValue = true := h.head.resolve_left hne
    split
    · have := headOK_append s.currentValue "." hok
      exact ⟨Or.inr this, fun h => absurd h (headOK_ne_error _ this), h.pending, h.history⟩
    · exact h

theorem inv_handleOperator (s : CalcState) (op : Op) (h : CalcInv s) :
    CalcInv (handleOperator s op.value) := by
  unfold handleOperator
  split
  · exact h
  · rename_i hne
    have hok : headOK s.currentValue = true := h.head.resolve_left hne
    have hset : CalcInv (CalcState.mk s.currentValue (some s.currentValue) (some op.value) true
        s.history) :=
      ⟨Or.inr hok, fun h => absurd h hne,
        Or.inr ⟨truthy_some _ (headOK_ne_empty _ hok), truthy_some _ (op_value_ne_empty op)⟩,
        h.history⟩
    split
    · rename_i a o _ _
      split
      · simp only
        rcases performCalculation_head a s.currentValue o (Or.inr hok) with hr | hr
        · rw [hr]
          exact ⟨Or.inl rfl, fun _ => ⟨rfl, rfl, rfl⟩, Or.inl ⟨rfl, rfl⟩, h.history⟩
        · have hr2 := headOK_ne_error _ hr
          refine ⟨Or.inr hr, fun h => absurd h hr2, Or.inr ⟨?_, ?_⟩, h.history⟩
          · simp only [if_neg hr2]
            exact truthy_some _ (headOK_ne_empty _ hr)
          · simp only [if_neg hr2]
            exact truthy_some _ (op_value_ne_empty op)
      · exact hset
    · exact hset

theorem pushHistory_length (entry : String) (prev : List String) :
    (pushHistory entry prev).length ≤ HISTORY_LIMIT := by
  simp only [pushHistory, HISTORY_LIMIT, List.length_cons, List.length_take]
  omega

theorem inv_handleEquals (s : CalcState) (h : CalcInv s) : CalcInv (handleEquals s) := by
  unfold handleEquals
  split
  · rename_i o a _ _
    split
    · exact h
    · simp only
      rcases performCalculation_head a s.currentValue o h.head with hr | hr
      · rw [hr]
        exact ⟨Or.inl rfl, fun _ => ⟨rfl, rfl, rfl⟩, Or.inl ⟨rfl, rfl⟩, pushHistory_length _ _⟩
      · exact ⟨Or.inr hr, fun _ => ⟨rfl, rfl, rfl⟩, Or.inl ⟨rfl, rfl⟩, pushHistory_length _ _⟩
  · exact h

theorem inv_handlePercent (s : CalcState) (h : CalcInv s) : CalcInv (handlePercent s) := by
  unfold handlePercent
  split
  · exact h
  · have := numberToString_headOK
      (JS.div (JS.toNumber s.currentValue) (JS.roundRat false 100 1))
    exact ⟨Or.inr this, fun h => absurd h (headOK_ne_error _ this), h.pending, h.history⟩

theorem inv_handleBackspace (s : CalcState) (h : CalcInv s) : CalcInv (handleBackspace s) := by
  unfold handleBackspace
  split
  · exact ⟨Or.inr headOK_zero, fun h => absurd h (headOK_ne_error _ headOK_zero),
      h.pending, h.history⟩
  · rename_i h1
    have hne : s.currentValue ≠ "Error" := fun h2 => h1 (Or.inl h2)
    have hok : headOK s.currentValue = true := h.head.resolve_left hne
    split
    · exact ⟨Or.inr headOK_zero, fun h => absurd h (headOK_ne_error _ headOK_zero),
      h.pending, h.history⟩
    · rename_i hl
      have := headOK_dropLast s.currentValue hok hl
      exact ⟨Or.inr this, fun h => absurd h (headOK_ne_error _ this), h.pending, h.history⟩

theorem inv_step (s : CalcState) (e : Event) (h : CalcInv s) : CalcInv (step s e) := by
  cases e with
  | clear => exact inv_clearAll s h
  | digit d => exact inv_handleNumber s d h
  | decimal => exact inv_handleDecimal s h
  | operator op => exact inv_handleOperator s op h
  | backspace => exact inv_handleBackspace s h
  | percent => exact inv_handlePercent s h
  | equals => exact inv_handleEquals s h

theorem inv_reachable (s : CalcState) (h : Reachable s) : CalcInv s := by
  induction h with
  | init => exact inv_initial
  | press s b _ hb ih =>
    obtain ⟨e, rfl⟩ := mem_buttons b hb
    exact inv_step s e ih

/-! ## The error state, the history bound and the pending pair -/

/-- C3, as the claim states it, fails: Clear, 8, ÷, 0, = leads to the error
state, and Backspace there is not a no-op: it puts `0` back. -/
theorem backspace_leaves_error_state :
    (run initialState [Event.digit 8, Event.operator Op.div, Event.digit 0,
        Event.equals]).currentValue = "Error"
      ∧ (step (run initialState [Event.digit 8, Event.operator Op.div, Event.digit 0,
        Event.equals]) Event.backspace).currentValue = "0"
      ∧ step (run initialState [Event.digit 8, Event.operator Op.div, Event.digit 0,
        Event.equals]) Event.backspace
        ≠ run initialState [Event.digit 8, Event.operator Op.div, Event.digit 0,
          Event.equals] := by
  decide!

/-- C3, amended: in every state with `currentValue = "Error"`, each operator
key and Percent return the state unchanged; Equals returns it unchanged when
the state is reachable, or more generally when the pending operand or operator
is `null` or `overwrite` is set; Backspace sets `currentValue` to `"0"` and
clears `overwrite`, leaving the other fields as they are. -/
theorem error_state_inputs (s : CalcState) (h : s.currentValue = "Error") :
    (∀ op : Op, step s (Event.operator op) = s)
      ∧ step s Event.percent = s
      ∧ (Reachable s → step s Event.equals = s)
      ∧ (s.previousValue = none ∨ s.operator = none ∨ s.overwrite = true →
          step s Event.equals = s)
      ∧ step s Event.backspace
          = CalcState.mk "0" s.previousValue s.operator false s.history := by
  have hguard : s.previousValue = none ∨ s.operator = none ∨ s.overwrite = true →
      handleEquals s = s := by
    intro hg
    unfold handleEquals
    split
    · rename_i o a ho ha
      have hw : s.overwrite = true := by
        rcases hg with hg | hg | hg
        · rw [ha] at hg; exact absurd hg (by simp)
        · rw [ho] at hg; exact absurd hg (by simp)
        · exact hg
      simp [hw]
    · rfl
  refine ⟨fun op => ?_, ?_, fun hr => ?_, hguard, ?_⟩
  · rw [step_operator]; simp [handleOperator, h]
  · rw [step_percent]; simp [handlePercent, h]
  · exact hguard (Or.inl ((inv_reachable s hr).error h).1)
  · rw [step_backspace]; simp [handleBackspace, h]

/-- C3, amended, at the error state with nothing pending: Backspace gives `0`. -/
theorem error_state_inputs_witness :
    (CalcState.mk "Error" none none true []).currentValue = "Error"
      ∧ step (CalcState.mk "Error" none none true []) Event.equals
          = CalcState.mk "Error" none none true []
      ∧ step (CalcState.mk "Error" none none true []) Event.backspace
          = CalcState.mk "0" none none false [] :=
  ⟨rfl, (error_state_inputs (CalcState.mk "Error" none none true []) rfl).2.2.2.1 (Or.inl rfl),
    (error_state_inputs (CalcState.mk "Error" none none true []) rfl).2.2.2.2⟩

/-- C6: in every reachable state the history has at most 10 entries. -/
theorem history_at_most_ten (s : CalcState) (h : Reachable s) : s.history.length ≤ 10 :=
  (inv_reachable s h).history

/-- C6 at the state after Clear, 5, +, 3, =. -/
theorem history_at_most_ten_witness :
    Reachable (run initialState [Event.clear, Event.digit 5, Event.operator Op.add,
        Event.digit 3, Event.equals])
      ∧ (run initialState [Event.clear, Event.digit 5, Event.operator Op.add,
        Event.digit 3, Event.equals]).history.length ≤ 10 :=
  ⟨reachable_run _, history_at_most_ten _ (reachable_run _)⟩

/-- C8: in every reachable state the pending operand and the pending operator
are both absent (`null`) or both present (non-empty strings). -/
theorem pending_both_or_neither (s : CalcState) (h : Reachable s) :
    (s.previousValue = none ∧ s.operator = none)
      ∨ (∃ a op, s.previousValue = some a ∧ s.operator = some op ∧ a ≠ "" ∧ op ≠ "") := by
  rcases (inv_reachable s h).pending with hp | ⟨hp, ho⟩
  · exact Or.inl hp
  · right
    cases hpv : s.previousValue with
    | none => rw [hpv] at hp; exact absurd hp (by decide)
    | some a =>
      cases hov : s.operator with
      | none => rw [hov] at ho; exact absurd ho (by decide)
      | some op =>
        rw [hpv] at hp
        rw [hov] at ho
        exact ⟨a, op, rfl, rfl, by simpa [truthy] using hp, by simpa [truthy] using ho⟩

/-- C8 at the state after 5, +: operand `5` and operator `+` are both pending. -/
theorem pending_both_or_neither_witness :
    Reachable (run initialState [Event.digit 5, Event.operator Op.add])
      ∧ ((run initialState [Event.digit 5, Event.operator Op.add]).previousValue = some "5"
        ∧ (run initialState [Event.digit 5, Event.operator Op.add]).operator = some "+")
      ∧ ((run initialState [Event.digit 5, Event.operator Op.add]).previousValue = none
          ∧ (run initialState [Event.digit 5, Event.operator Op.add]).operator = none
        ∨ ∃ a op, (run initialState [Event.digit 5, Event.operator Op.add]).previousValue = some a
          ∧ (run initialState [Event.digit 5, Event.operator Op.add]).operator = some op
          ∧ a ≠ "" ∧ op ≠ "") :=
  ⟨reachable_run _, ⟨by decide, by decide⟩, pending_both_or_neither _ (reachable_run _)⟩

/-! ## Typing digits after Clear -/

theorem dropWhile_snoc_of_nil (p : Char → Bool) (l : List Char) (c : Char)
    (h : l.dropWhile p = []) : (l ++ [c]).dropWhile p = [c].dropWhile p := by
  induction l with
  | nil => rfl
  | cons a l ih =>
    by_cases ha : p a = true
    · have h2 : l.dropWhile p = [] := by simpa [List.dropWhile_cons, ha] using h
      rw [List.cons_append, List.dropWhile_cons, if_pos ha]
      exact ih h2
    · simp [List.dropWhile_cons, ha] at h

theorem dropWhile_snoc_of_ne_nil (p : Char → Bool) (l : List Char) (c : Char)
    (h : l.dropWhile p ≠ []) : (l ++ [c]).dropWhile p = l.dropWhile p ++ [c] := by
  induction l with
  | nil => exact absurd rfl h
  | cons a l ih =>
    by_cases ha : p a = true
    · have h2 : l.dropWhile p ≠ [] := by simpa [List.dropWhile_cons, ha] using h
      rw [List.cons_append, List.dropWhile_cons, if_pos ha, List.dropWhile_cons, if_pos ha]
      exact ih h2
    · simp [List.dropWhile_cons, ha]

theorem stripLeadingZeros_snoc_zero (l : List Char) (c : Char)
    (h : stripLeadingZeros l = ['0']) : stripLeadingZeros (l ++ [c]) = [c] := by
  have hnil : l.dropWhile (fun c => c == '0') = [] := by
    by_contra hne
    unfold stripLeadingZeros at h
    rw [if_neg hne] at h
    have := List.head_dropWhile_not (fun c => c == '0') l hne
    simp [h] at this
  unfold stripLeadingZeros
  rw [dropWhile_snoc_of_nil _ l c hnil]
  by_cases hc : c = '0'
  · subst hc; rfl
  · simp [List.dropWhile_cons, hc]

theorem stripLeadingZeros_snoc (l : List Char) (c : Char)
    (h : stripLeadingZeros l ≠ ['0']) :
    stripLeadingZeros (l ++ [c]) = stripLeadingZeros l ++ [c] := by
  have hne : l.dropWhile (fun c => c == '0') ≠ [] := by
    intro hnil
    exact h (by unfold stripLeadingZeros; rw [if_pos hnil])
  unfold stripLeadingZeros
  rw [dropWhile_snoc_of_ne_nil _ l c hne, if_neg hne, if_neg (by simp)]

theorem stripLeadingZeros_digits (ds : List (Fin 10)) :
    ∀ c ∈ stripLeadingZeros (digitsText ds), JS.isDigit c = true := by
  intro c hc
  unfold stripLeadingZeros at hc
  split at hc
  · simp only [List.mem_singleton] at hc
    subst hc; decide
  · have := (List.dropWhile_sublist _).subset hc
    simp only [digitsText, List.mem_map] at this
    obtain ⟨d, _, rfl⟩ := this
    exact isDigit_digitChar _

theorem digits_ne_error (cs : List Char) (h : ∀ c ∈ cs, JS.isDigit c = true) :
    String.mk cs ≠ "Error" := by
  intro he
  have hcs : cs = ['E', 'r', 'r', 'o', 'r'] := congrArg String.data he
  have := h 'E' (by rw [hcs]; simp)
  exact absurd this (by decide)

theorem run_digits_after_clear (s : CalcState) (ds : List (Fin 10)) :
    run (clearAll s) (ds.map Event.digit)
      = CalcState.mk (String.mk (stripLeadingZeros (digitsText ds))) none none false
          s.history := by
  induction ds using List.reverseRecOn with
  | nil => rfl
  | append_singleton ds d ih =>
    rw [List.map_append, run_append, ih]
    show handleNumber _ (digitStr d) = _
    have hne := digits_ne_error _ (stripLeadingZeros_digits ds)
    have htext : digitsText (ds ++ [d]) = digitsText ds ++ [JS.digitChar d.val] := by
      simp [digitsText]
    unfold handleNumber
    simp only [hne, false_or, Bool.false_eq_true, if_false]
    by_cases h0 : stripLeadingZeros (digitsText ds) = ['0']
    · have hz : String.mk (stripLeadingZeros (digitsText ds)) = "0" := by rw [h0]
      rw [if_pos hz, htext, stripLeadingZeros_snoc_zero _ _ h0]
      rfl
    · have hz : String.mk (stripLeadingZeros (digitsText ds)) ≠ "0" := by
        intro he
        exact h0 (congrArg String.data he)
      rw [if_neg hz, htext, stripLeadingZeros_snoc _ _ h0]
      rfl

/-- C9: from every state, Clear followed by the digits `d1 .. dn` (`n ≥ 1`)
gives as `currentValue` the concatenation of the digits without its leading
zeros (`"0"` when every digit is 0), with `overwrite` false, nothing pending
and the history as it was. -/
theorem digits_after_clear (s : CalcState) (ds : List (Fin 10)) (hds : ds ≠ []) :
    run s (Event.clear :: ds.map Event.digit)
      = CalcState.mk (String.mk (stripLeadingZeros (digitsText ds))) none none false
          s.history := by
  cases ds with
  | nil => exact absurd rfl hds
  | cons d ds =>
    rw [run_cons, step_clear]
    exact run_digits_after_clear s (d :: ds)

/-- C9 at the digits 0, 5: the current value is `5`. -/
theorem digits_after_clear_witness :
    ([0, 5] : List (Fin 10)) ≠ []
      ∧ run initialState [Event.clear, Event.digit 0, Event.digit 5]
          = CalcState.mk "5" none none false [] :=
  ⟨by decide, digits_after_clear initialState [0, 5] (by decide)⟩

/-! ## Division -/

/-- C5, as the claim states it, fails: with the left operand `Infinity` the
division gives `Error` although the right operand `1` does not parse to 0. -/
theorem division_error_without_zero_divisor :
    performCalculation "Infinity" "1" "/" = "Error"
      ∧ JS.isZero (JS.toNumber "1") = false := by
  decide!

/-- C5, amended: `performCalculation a b "/"` is `"Error"` exactly when `a` or
`b` does not parse to a finite Number or `b` parses to zero. -/
theorem division_error_iff (a b : String) :
    performCalculation a b "/" = "Error"
      ↔ (JS.isFinite (JS.toNumber a) = false ∨ JS.isFinite (JS.toNumber b) = false
          ∨ JS.isZero (JS.toNumber b) = true) := by
  have hs : ∀ x : JS.Num, JS.numberToString x ≠ "Error" :=
    fun x => headOK_ne_error _ (numberToString_headOK x)
  have h1 : ("/" : String) ≠ "+" := by decide
  have h2 : ("/" : String) ≠ "-" := by decide
  have h3 : ("/" : String) ≠ "*" := by decide
  unfold performCalculation
  simp only [h1, h2, h3, if_false, if_true]
  cases ha : JS.isFinite (JS.toNumber a) <;> cases hb : JS.isFinite (JS.toNumber b) <;>
    cases hz : JS.isZero (JS.toNumber b) <;> simp [hs]

/-! ## The shape of the current value -/

theorem isPartialDecimal_iff (v : String) :
    isPartialDecimal v = true ↔
      v.data ≠ [] ∧ (∀ c ∈ v.data, JS.isDigit c = true ∨ c = '.') ∧ v.data.count '.' ≤ 1 := by
  have hne : v ≠ "" ↔ v.data ≠ [] := by
    constructor
    · intro h hd
      exact h (String.ext hd)
    · rintro h rfl
      exact h rfl
  simp [isPartialDecimal, hne, and_assoc]

theorem isPartialDecimal_ne_error (v : String) (h : isPartialDecimal v = true) :
    v ≠ "Error" := by
  rintro rfl
  exact absurd h (by decide)

theorem isPartialDecimal_digitStr (d : Fin 10) : isPartialDecimal (digitStr d) = true := by
  fin_cases d <;> decide

theorem isPartialDecimal_append_digit (v : String) (d : Fin 10)
    (h : isPartialDecimal v = true) : isPartialDecimal (v ++ digitStr d) = true := by
  rw [isPartialDecimal_iff] at h ⊢
  obtain ⟨h1, h2, h3⟩ := h
  have hd : JS.isDigit (JS.digitChar d.val) = true := isDigit_digitChar _
  have hdot : JS.digitChar d.val ≠ '.' := by
    intro he
    rw [he] at hd
    exact absurd hd (by decide)
  refine ⟨?_, ?_, ?_⟩
  · simp [String.data_append, h1]
  · intro c hc
    simp only [String.data_append, digitStr, List.mem_append, List.mem_singleton] at hc
    rcases hc with hc | hc
    · exact h2 c hc
    · subst hc
      exact Or.inl hd
  · simp only [String.data_append, digitStr, List.count_append, List.count_cons,
      List.count_nil]
    simp [hdot, h3]

theorem isPartialDecimal_append_dot (v : String) (h : isPartialDecimal v = true)
    (hdot : '.' ∉ v.data) : isPartialDecimal (v ++ ".") = true := by
  rw [isPartialDecimal_iff] at h ⊢
  obtain ⟨h1, h2, _⟩ := h
  refine ⟨?_, ?_, ?_⟩
  · simp [String.data_append, h1]
  · intro c hc
    simp only [String.data_append, List.mem_append] at hc
    rcases hc with hc | hc
    · exact h2 c hc
    · right
      simpa using hc
  · simp only [String.data_append, List.count_append]
    rw [List.count_eq_zero_of_not_mem hdot]
    decide

theorem isPartialDecimal_dropLast (v : String) (h : isPartialDecimal v = true)
    (hl : ¬ v.length ≤ 1) : isPartialDecimal (String.mk v.data.dropLast) = true := by
  rw [isPartialDecimal_iff] at h ⊢
  obtain ⟨_, h2, h3⟩ := h
  have hlen : v.length = v.data.length := rfl
  refine ⟨?_, ?_, ?_⟩
  · intro he
    have : v.data.dropLast.length = v.data.length - 1 := List.length_dropLast _
    simp only at he
    rw [he] at this
    simp only [List.length_nil] at this
    omega
  · intro c hc
    exact h2 c ((List.dropLast_sublist _).subset hc)
  · exact le_trans ((List.dropLast_sublist _).count_le _) h3

theorem isPartialDecimal_zero : isPartialDecimal "0" = true := by decide

theorem isPartialDecimal_zero_dot : isPartialDecimal "0." = true := by decide

theorem isPartialDecimal_step (s : CalcState) (e : Event) (he : e.isEntry = true)
    (h : isPartialDecimal s.currentValue = true) :
    isPartialDecimal (step s e).currentValue = true := by
  have hne := isPartialDecimal_ne_error _ h
  cases e with
  | clear => exact isPartialDecimal_zero
  | digit d =>
    rw [step_digit]
    unfold handleNumber
    split
    · exact isPartialDecimal_digitStr d
    · split
      · exact isPartialDecimal_digitStr d
      · exact isPartialDecimal_append_digit _ d h
  | decimal =>
    rw [step_decimal]
    unfold handleDecimal
    split
    · exact isPartialDecimal_zero_dot
    · split
      · rename_i hdot
        exact isPartialDecimal_append_dot _ h hdot
      · exact h
  | backspace =>
    rw [step_backspace]
    unfold handleBackspace
    split
    · exact isPartialDecimal_zero
    · split
      · exact isPartialDecimal_zero
      · rename_i hl
        exact isPartialDecimal_dropLast _ h hl
  | operator op => exact absurd he (by simp [Event.isEntry])
  | percent => exact absurd he (by decide)
  | equals => exact absurd he (by decide)

theorem isPartialDecimal_run (s : CalcState) (es : List Event)
    (hes : es.all Event.isEntry = true) (h : isPartialDecimal s.currentValue = true) :
    isPartialDecimal (run s es).currentValue = true := by
  induction es generalizing s with
  | nil => exact h
  | cons e es ih =>
    simp only [List.all_cons, Bool.and_eq_true] at hes
    rw [run_cons]
    exact ih (step s e) hes.2 (isPartialDecimal_step s e hes.1 h)

/-- C4, as the claim states it, fails: 3, −, 5, = leads to the current value
`-2`, which is neither `Error` nor a string of digits and `.`. -/
theorem current_value_can_carry_sign :
    Reachable (run initialState [Event.digit 3, Event.operator Op.sub, Event.digit 5,
        Event.equals])
      ∧ (run initialState [Event.digit 3, Event.operator Op.sub, Event.digit 5,
        Event.equals]).currentValue = "-2"
      ∧ ¬ ((run initialState [Event.digit 3, Event.operator Op.sub, Event.digit 5,
          Event.equals]).currentValue = "Error"
        ∨ isPartialDecimal (run initialState [Event.digit 3, Event.operator Op.sub,
          Event.digit 5, Event.equals]).currentValue = true) :=
  ⟨reachable_run _, by decide!, by decide!⟩

/-! ## The history as a bounded stack -/

theorem handleEquals_not_fires (s : CalcState) (h : equalsFires s = false) :
    handleEquals s = s := by
  unfold handleEquals
  split
  · rename_i o a ho ha
    simp only [equalsFires, ho, ha, truthy] at h
    split
    · rfl
    · rename_i hg
      simp only [not_or] at hg
      simp [hg.1, hg.2.1, hg.2.2] at h
  · rfl

theorem handleEquals_history_fires (s : CalcState) (h : equalsFires s = true) :
    (handleEquals s).history = pushHistory (equalsEntry s) s.history := by
  unfold handleEquals equalsEntry
  split
  · rename_i o a ho ha
    simp only [equalsFires, ho, ha, truthy, Bool.and_eq_true, decide_eq_true_eq,
      Bool.not_eq_true'] at h
    simp [h.1.1, h.1.2, h.2]
  · rename_i hn
    simp only [equalsFires, Bool.and_eq_true] at h
    cases ho : s.operator with
    | none => rw [ho] at h; exact absurd h.1.1 (by decide)
    | some o =>
      cases ha : s.previousValue with
      | none => rw [ha] at h; exact absurd h.1.2 (by decide)
      | some a => exact absurd ha (hn o a ho)

theorem step_history_frame (s : CalcState) (e : Event) (he : e ≠ Event.equals) :
    (step s e).history = s.history := by
  cases e with
  | clear => rfl
  | digit d =>
    rw [step_digit]; unfold handleNumber
    split
    · rfl
    · split <;> rfl
  | decimal =>
    rw [step_decimal]; unfold handleDecimal
    split
    · rfl
    · split <;> rfl
  | operator op =>
    rw [step_operator]; unfold handleOperator
    split
    · rfl
    · split
      · split <;> rfl
      · rfl
  | backspace =>
    rw [step_backspace]; unfold handleBackspace
    split
    · rfl
    · split <;> rfl
  | percent =>
    rw [step_percent]; unfold handlePercent
    split <;> rfl
  | equals => exact absurd rfl he

theorem take_append_take (n : Nat) (xs ys : List String) :
    (xs ++ ys.take n).take n = (xs ++ ys).take n := by
  rw [List.take_append_eq_append_take, List.take_append_eq_append_take, List.take_take]
  congr 2
  omega

theorem run_history (s : CalcState) (es : List Event) (h : s.history.length ≤ 10) :
    (run s es).history = ((producedEntries s es).reverse ++ s.history).take 10 := by
  induction es generalizing s with
  | nil =>
    simp only [run_nil, producedEntries, List.reverse_nil, List.nil_append]
    exact (List.take_of_length_le h).symm
  | cons e es ih =>
    rw [run_cons]
    unfold producedEntries
    split
    · rename_i hf
      obtain ⟨rfl, hf⟩ := hf
      have hh : (step s Event.equals).history = pushHistory (equalsEntry s) s.history :=
        handleEquals_history_fires s hf
      rw [ih (step s Event.equals) (by rw [hh]; exact pushHistory_length _ _), hh,
        pushHistory_eq_take, take_append_take, List.reverse_cons, List.append_assoc]
      rfl
    · rename_i hf
      have hh : (step s e).history = s.history := by
        by_cases he : e = Event.equals
        · subst he
          have : equalsFires s = false := by
            cases hq : equalsFires s
            · rfl
            · exact absurd ⟨rfl, hq⟩ hf
          rw [step_equals, handleEquals_not_fires s this]
        · exact step_history_frame s e he
      rw [ih (step s e) (by rw [hh]; exact h), hh]

/-- C7: starting from an empty history, after a run whose complete
equals-operations produce the entries `e1, ..., en` in that order, the history
is the last `min n 10` of them, newest first: the first 10 elements of
`[en, ..., e1]`. -/
theorem history_keeps_ten_newest (s : CalcState) (es : List Event) (h : s.history = []) :
    (run s es).history = (producedEntries s es).reverse.take 10
      ∧ (run s es).history = ((producedEntries s es).drop
          ((producedEntries s es).length - 10)).reverse
      ∧ (run s es).history.length = min (producedEntries s es).length 10 := by
  have h1 : (run s es).history = (producedEntries s es).reverse.take 10 := by
    rw [run_history s es (by rw [h]; decide), h, List.append_nil]
  refine ⟨h1, ?_, ?_⟩
  · rw [h1, List.take_reverse]
  · rw [h1, List.length_take, List.length_reverse, Nat.min_comm]

/-- C7 at twelve operations `1 + 1 =`, ..., `12 + 1 =`: exactly the entries of
the last ten are left, newest first. -/
theorem history_keeps_ten_newest_witness :
    initialState.history = []
      ∧ (producedEntries initialState twelveSums).length = 12
      ∧ (run initialState twelveSums).history =
          ["12 + 1 = 13", "11 + 1 = 12", "10 + 1 = 11", "9 + 1 = 10", "8 + 1 = 9",
            "7 + 1 = 8", "6 + 1 = 7", "5 + 1 = 6", "4 + 1 = 5", "3 + 1 = 4"] :=
  ⟨rfl, by decide!,
    ((history_keeps_ten_newest initialState twelveSums rfl).1).trans (by decide!)⟩

/-! ## Operator keys -/

theorem handleOperator_fires (s : CalcState) (a o next : String)
    (hne : s.currentValue ≠ "Error")
    (hp : s.previousValue = some a) (ho : s.operator = some o)
    (ha : a ≠ "") (hop : o ≠ "") (hw : s.overwrite = false) :
    handleOperator s next =
      CalcState.mk (performCalculation a s.currentValue o)
        (if performCalculation a s.currentValue o = "Error" then none
          else some (performCalculation a s.currentValue o))
        (if performCalculation a s.currentValue o = "Error" then none else some next)
        true s.history := by
  simp [handleOperator, hne, hp, ho, ha, hop, hw]

theorem handleOperator_sets (s : CalcState) (next : String)
    (hne : s.currentValue ≠ "Error")
    (h : truthy s.previousValue = false ∨ truthy s.operator = false ∨ s.overwrite = true) :
    handleOperator s next =
      CalcState.mk s.currentValue (some s.currentValue) (some next) true s.history := by
  unfold handleOperator
  rw [if_neg hne]
  split
  · rename_i a o ha ho
    split
    · rename_i hc
      rw [ha, ho] at h
      simp [truthy, hc.1, hc.2.1, hc.2.2] at h
    · rfl
  · rfl

/-- C11: in a state whose current value is not `Error`, with a pending operand
`a` and a pending operator `o` (present in the sense the code tests: not
`null` and not the empty string) and `overwrite` false, an operator key `op`
evaluates `r = performCalculation a currentValue o`; when `r` is not `Error`
the new state has `currentValue = r`, pending operand `r`, pending operator
`op` and `overwrite = true`; when `r` is `Error` it has `currentValue =
"Error"`, nothing pending and `overwrite = true`.  The history is unchanged. -/
theorem operator_evaluates_pending (s : CalcState) (a o : String) (op : Op)
    (hne : s.currentValue ≠ "Error")
    (hp : s.previousValue = some a) (ho : s.operator = some o)
    (ha : a ≠ "") (hop : o ≠ "") (hw : s.overwrite = false) :
    (performCalculation a s.currentValue o ≠ "Error" →
        step s (Event.operator op) =
          CalcState.mk (performCalculation a s.currentValue o)
            (some (performCalculation a s.currentValue o)) (some op.value) true s.history)
      ∧ (performCalculation a s.currentValue o = "Error" →
        step s (Event.operator op) = CalcState.mk "Error" none none true s.history) := by
  rw [step_operator, handleOperator_fires s a o op.value hne hp ho ha hop hw]
  constructor
  · intro hr
    rw [if_neg hr, if_neg hr]
  · intro hr
    rw [if_pos hr, if_pos hr, hr]

/-- C11 after 2, +, 3: the key × gives current value `5`, pending operand `5`
and pending operator `*`. -/
theorem operator_evaluates_pending_witness :
    run initialState [Event.digit 2, Event.operator Op.add, Event.digit 3]
        = CalcState.mk "3" (some "2") (some "+") false []
      ∧ performCalculation "2" "3" "+" ≠ "Error"
      ∧ step (CalcState.mk "3" (some "2") (some "+") false []) (Event.operator Op.mul)
        = CalcState.mk "5" (some "5") (some "*") true [] :=
  ⟨by decide, by decide!,
    ((operator_evaluates_pending (CalcState.mk "3" (some "2") (some "+") false []) "2" "+"
      Op.mul (by decide) rfl rfl (by decide) (by decide) rfl).1 (by decide!)).trans
      (by decide!)⟩

/-- C12: for every state, pressing an operator key and then another operator
key gives the same state as pressing the second key alone. -/
theorem operator_switch (s : CalcState) (op1 op2 : Op) :
    step (step s (Event.operator op1)) (Event.operator op2) = step s (Event.operator op2) := by
  simp only [step_operator]
  by_cases hne : s.currentValue = "Error"
  · have h1 : ∀ v, handleOperator s v = s := fun v => by simp [handleOperator, hne]
    rw [h1, h1]
  · by_cases hf : truthy s.previousValue = false ∨ truthy s.operator = false ∨
        s.overwrite = true
    · rw [handleOperator_sets s op1.value hne hf, handleOperator_sets s op2.value hne hf]
      exact handleOperator_sets _ op2.value hne (Or.inr (Or.inr rfl))
    · simp only [not_or, Bool.not_eq_false, Bool.not_eq_true] at hf
      obtain ⟨hp, ho, hw⟩ := hf
      cases hpv : s.previousValue with
      | none => rw [hpv] at hp; exact absurd hp (by decide)
      | some a =>
        cases hov : s.operator with
        | none => rw [hov] at ho; exact absurd ho (by decide)
        | some o =>
          have ha : a ≠ "" := by rw [hpv] at hp; simpa [truthy] using hp
          have hop : o ≠ "" := by rw [hov] at ho; simpa [truthy] using ho
          rw [handleOperator_fires s a o op1.value hne hpv hov ha hop hw,
            handleOperator_fires s a o op2.value hne hpv hov ha hop hw]
          by_cases hr : performCalculation a s.currentValue o = "Error"
          · simp only [if_pos hr, hr]
            simp [handleOperator]
          · simp only [if_neg hr]
            exact handleOperator_sets _ op2.value hr (Or.inr (Or.inr rfl))

/-- C13: for every state, pressing Decimal twice gives the same state as
pressing it once. -/
theorem decimal_idempotent (s : CalcState) :
    step (step s Event.decimal) Event.decimal = step s Event.decimal := by
  simp only [step_decimal]
  by_cases h1 : s.currentValue = "Error" ∨ s.overwrite = true
  · have : handleDecimal s = CalcState.mk "0." s.previousValue s.operator false s.history := by
      simp only [handleDecimal, if_pos h1]
    rw [this]
    rfl
  · by_cases h2 : '.' ∈ s.currentValue.data
    · have : handleDecimal s = s := by
        unfold handleDecimal
        rw [if_neg h1, if_neg (not_not.mpr h2)]
      rw [this, this]
    · have hs : handleDecimal s = CalcState.mk (s.currentValue ++ ".") s.previousValue
          s.operator s.overwrite s.history := by
        unfold handleDecimal
        rw [if_neg h1, if_pos h2]
      have hw : s.overwrite = false := by
        cases hq : s.overwrite
        · rfl
        · exact absurd (Or.inr hq) h1
      have hne : s.currentValue ++ "." ≠ "Error" := by
        intro he
        have hd := congrArg String.data he
        rw [String.data_append] at hd
        have hl := congrArg List.getLast? hd
        simp at hl
      have hdot : '.' ∈ (s.currentValue ++ ".").data := by
        rw [String.data_append]
        simp
      rw [hs]
      unfold handleDecimal
      simp only [hne, hw, false_or, Bool.false_eq_true, if_false, hdot, not_true_eq_false]

/-! ## Percent, the frame of the history, Equals, the error state, Backspace -/

/-- C14: in a state whose current value is not `Error`, Percent sets the
current value to the text of the Number `Number(currentValue) / 100` and leaves
the pending operand, the pending operator, `overwrite` and the history as they
are. -/
theorem percent_divides_by_hundred (s : CalcState) (hne : s.currentValue ≠ "Error") :
    step s Event.percent =
      CalcState.mk
        (JS.numberToString (JS.div (JS.toNumber s.currentValue) (JS.toNumber "100")))
        s.previousValue s.operator s.overwrite s.history := by
  have h100 : JS.toNumber "100" = JS.roundRat false 100 1 := by decide!
  rw [step_percent, h100]
  simp [handlePercent, hne]

/-- C14 at Clear, 1, `.`, 5, Percent: the current value is `0.015`. -/
theorem percent_divides_by_hundred_witness :
    run initialState [Event.clear, Event.digit 1, Event.decimal, Event.digit 5]
        = CalcState.mk "1.5" none none false []
      ∧ run initialState [Event.clear, Event.digit 1, Event.decimal, Event.digit 5,
          Event.percent] = CalcState.mk "0.015" none none false [] :=
  ⟨by decide,
    (percent_divides_by_hundred (CalcState.mk "1.5" none none false []) (by decide)).trans
      (by decide!)⟩

/-- C17: every event other than Equals leaves the history as it is, and Clear
resets the current value to `0`, clears the pending operand and operator and
`overwrite`, and keeps the history. -/
theorem history_changed_only_by_equals (s : CalcState) (e : Event) (he : e ≠ Event.equals) :
    (step s e).history = s.history
      ∧ step s Event.clear = CalcState.mk "0" none none false s.history :=
  ⟨step_history_frame s e he, rfl⟩

/-- C17 at the operator key + pressed after 5, +, 3, = (one entry in the history). -/
theorem history_changed_only_by_equals_witness :
    Event.operator Op.add ≠ Event.equals
      ∧ (step (CalcState.mk "8" none none true ["5 + 3 = 8"]) (Event.operator Op.add)).history
          = ["5 + 3 = 8"]
      ∧ step (CalcState.mk "8" none none true ["5 + 3 = 8"]) Event.clear
          = CalcState.mk "0" none none false ["5 + 3 = 8"] :=
  ⟨by decide,
    (history_changed_only_by_equals (CalcState.mk "8" none none true ["5 + 3 = 8"])
      (Event.operator Op.add) (by decide)).1,
    (history_changed_only_by_equals (CalcState.mk "8" none none true ["5 + 3 = 8"])
      (Event.operator Op.add) (by decide)).2⟩

theorem equalsFires_false_of_guard (s : CalcState)
    (h : s.previousValue = none ∨ s.operator = none ∨ s.overwrite = true) :
    equalsFires s = false := by
  unfold equalsFires
  rcases h with h | h | h <;> simp [h, truthy]

theorem equalsFires_after_equals (s : CalcState) : equalsFires (handleEquals s) = false := by
  cases hf : equalsFires s
  · rw [handleEquals_not_fires s hf]
    exact hf
  · unfold handleEquals
    split
    · split
      · exact absurd hf (by
          rename_i o a ho ha hg
          unfold equalsFires
          rw [ho, ha]
          rcases hg with hg | hg | hg <;> simp [hg, truthy])
      · rfl
    · rename_i hn
      unfold equalsFires at hf
      cases ho : s.operator with
      | none => rw [ho] at hf; exact absurd hf (by simp [truthy])
      | some o =>
        cases ha : s.previousValue with
        | none => rw [ha] at hf; exact absurd hf (by simp [truthy])
        | some a => exact absurd ha (hn o a ho)

/-- C18: in every state whose pending operand or pending operator is absent,
or whose `overwrite` is set, Equals returns the state unchanged in all fields;
and for every state Equals pressed twice gives the same state as Equals
pressed once. -/
theorem equals_noop_without_fresh_operand (s : CalcState) :
    (s.previousValue = none ∨ s.operator = none ∨ s.overwrite = true →
        step s Event.equals = s)
      ∧ step (step s Event.equals) Event.equals = step s Event.equals := by
  simp only [step_equals]
  exact ⟨fun h => handleEquals_not_fires s (equalsFires_false_of_guard s h),
    handleEquals_not_fires _ (equalsFires_after_equals s)⟩

/-- C18 right after an operator key: 5, + leaves `overwrite` set, and Equals
changes nothing. -/
theorem equals_noop_without_fresh_operand_witness :
    (CalcState.mk "5" (some "5") (some "+") true []).overwrite = true
      ∧ step (CalcState.mk "5" (some "5") (some "+") true []) Event.equals
          = CalcState.mk "5" (some "5") (some "+") true [] :=
  ⟨rfl, (equals_noop_without_fresh_operand
    (CalcState.mk "5" (some "5") (some "+") true [])).1 (Or.inr (Or.inr rfl))⟩

/-- C19: in every reachable state whose current value is `Error`, the pending
operand and the pending operator are absent and `overwrite` is set. -/
theorem error_has_nothing_pending (s : CalcState) (hr : Reachable s)
    (he : s.currentValue = "Error") :
    s.previousValue = none ∧ s.operator = none ∧ s.overwrite = true :=
  (inv_reachable s hr).error he

/-- C19 at the state after 8, ÷, 0 and a second operator key, which evaluates
the division by zero. -/
theorem error_has_nothing_pending_witness :
    Reachable (run initialState [Event.digit 8, Event.operator Op.div, Event.digit 0,
        Event.operator Op.add])
      ∧ (run initialState [Event.digit 8, Event.operator Op.div, Event.digit 0,
        Event.operator Op.add]).currentValue = "Error"
      ∧ ((run initialState [Event.digit 8, Event.operator Op.div, Event.digit 0,
          Event.operator Op.add]).previousValue = none
        ∧ (run initialState [Event.digit 8, Event.operator Op.div, Event.digit 0,
          Event.operator Op.add]).operator = none
        ∧ (run initialState [Event.digit 8, Event.operator Op.div, Event.digit 0,
          Event.operator Op.add]).overwrite = true) :=
  ⟨reachable_run _, by decide!,
    error_has_nothing_pending _ (reachable_run _) (by decide!)⟩

theorem digitStr_data (d : Fin 10) : (digitStr d).data = [JS.digitChar d.val] := rfl

theorem append_digit_ne_error (v : String) (d : Fin 10) : v ++ digitStr d ≠ "Error" := by
  intro he
  have hd : v.data ++ [JS.digitChar d.val] = ['E', 'r', 'r', 'o', 'r'] := by
    have := congrArg String.data he
    rwa [String.data_append, digitStr_data] at this
  have hr := congrArg List.reverse hd
  simp only [List.reverse_append, List.reverse_cons, List.reverse_nil, List.nil_append,
    List.singleton_append, List.cons_append] at hr
  have hc : JS.digitChar d.val = 'r' := (List.cons.inj hr).1
  have hdig := isDigit_digitChar d.val
  rw [hc] at hdig
  exact absurd hdig (by decide)

theorem zero_ne_empty : ("0" : String) ≠ "" := by decide

theorem handleBackspace_currentValue_ne_empty (s : CalcState) :
    (handleBackspace s).currentValue ≠ "" := by
  unfold handleBackspace
  split
  · exact zero_ne_empty
  · split
    · exact zero_ne_empty
    · rename_i hl
      intro he
      have hd : s.currentValue.data.dropLast = [] := congrArg String.data he
      have hlen : s.currentValue.data.dropLast.length = s.currentValue.data.length - 1 :=
        List.length_dropLast _
      rw [hd] at hlen
      have : s.currentValue.length = s.currentValue.data.length := rfl
      simp only [List.length_nil] at hlen
      omega

/-- C20: in every state with `overwrite` false and a current value that is
neither empty nor `Error`, a digit key followed by Backspace gives back exactly
that state (also when the current value is `0`); and after Backspace, from any
state, the current value is not the empty string. -/
theorem backspace_undoes_digit (s : CalcState) (d : Fin 10)
    (hw : s.overwrite = false) (hne : s.currentValue ≠ "") (herr : s.currentValue ≠ "Error") :
    step (step s (Event.digit d)) Event.backspace = s
      ∧ ∀ t : CalcState, (step t Event.backspace).currentValue ≠ "" := by
  refine ⟨?_, fun t => handleBackspace_currentValue_ne_empty t⟩
  rw [step_digit, step_backspace]
  have hdne : digitStr d ≠ "Error" := headOK_ne_error _ (headOK_digitStr d)
  have hdlen : (digitStr d).length ≤ 1 := by
    show (digitStr d).data.length ≤ 1
    rw [digitStr_data]
    exact le_refl 1
  cases s with
  | mk cur prev op ow hist =>
    simp only at hw hne herr
    subst hw
    by_cases h0 : cur = "0"
    · subst h0
      simp [handleNumber, handleBackspace, hdne, hdlen]
    · have happ := append_digit_ne_error cur d
      have hlen : ¬ (cur ++ digitStr d).length ≤ 1 := by
        have h1 : (cur ++ digitStr d).length = cur.data.length + 1 := by
          show (cur ++ digitStr d).data.length = _
          rw [String.data_append, digitStr_data, List.length_append]
          rfl
        have h2 : cur.data ≠ [] := fun h => hne (String.ext h)
        have h3 : 0 < cur.data.length := List.length_pos.mpr h2
        omega
      have hdrop : String.mk (cur ++ digitStr d).data.dropLast = cur := by
        rw [String.data_append, digitStr_data, List.dropLast_concat]
      have h1 : handleNumber (CalcState.mk cur prev op false hist) (digitStr d)
          = CalcState.mk (cur ++ digitStr d) prev op false hist := by
        simp [handleNumber, herr, h0]
      rw [h1]
      unfold handleBackspace
      simp only
      rw [if_neg (not_or.mpr ⟨happ, by decide⟩), if_neg hlen, hdrop]

/-- C20 at the current values `12` and `0` with the digit 7. -/
theorem backspace_undoes_digit_witness :
    step (step (CalcState.mk "12" none none false []) (Event.digit 7)) Event.backspace
        = CalcState.mk "12" none none false []
      ∧ step (step (CalcState.mk "0" none none false []) (Event.digit 7)) Event.backspace
        = CalcState.mk "0" none none false []
      ∧ (step (CalcState.mk "7" none none false []) Event.backspace).currentValue ≠ "" :=
  ⟨(backspace_undoes_digit (CalcState.mk "12" none none false []) 7 rfl (by decide)
      (by decide)).1,
    (backspace_undoes_digit (CalcState.mk "0" none none false []) 7 rfl (by decide)
      (by decide)).1,
    (backspace_undoes_digit (CalcState.mk "0" none none false []) 7 rfl (by decide)
      (by decide)).2 (CalcState.mk "7" none none false [])⟩

/-! ## Decimal digits of a natural number -/

theorem natDigitsAux_fuel (fuel n : Nat) (h : n < fuel) :
    JS.natDigitsAux fuel n = JS.natDigitsAux (n + 1) n := by
  induction fuel using Nat.strong_induction_on generalizing n with
  | _ fuel ih =>
    cases fuel with
    | zero => exact absurd h (Nat.not_lt_zero _)
    | succ fuel =>
      unfold JS.natDigitsAux
      by_cases h10 : n < 10
      · simp only [h10, if_true]
      · simp only [h10, if_false]
        have hlt : n / 10 < n := Nat.div_lt_self (by omega) (by decide)
        rw [ih fuel (Nat.lt_succ_self _) (n / 10) (by omega),
          ih n (by omega) (n / 10) hlt]

theorem natDigits_eq (n : Nat) :
    JS.natDigits n =
      if n < 10 then [JS.digitChar n] else JS.natDigits (n / 10) ++ [JS.digitChar (n % 10)] := by
  show JS.natDigitsAux (n + 1) n = _
  rw [JS.natDigitsAux]
  by_cases h10 : n < 10
  · simp only [h10, if_true]
  · simp only [h10, if_false]
    have hlt : n / 10 < n := Nat.div_lt_self (by omega) (by decide)
    rw [natDigitsAux_fuel n (n / 10) hlt]
    rfl

theorem natDigits_lt_ten (n : Nat) (h : n < 10) : JS.natDigits n = [JS.digitChar n] := by
  rw [natDigits_eq, if_pos h]

theorem natDigits_ge_ten (n : Nat) (h : ¬ n < 10) :
    JS.natDigits n = JS.natDigits (n / 10) ++ [JS.digitChar (n % 10)] := by
  rw [natDigits_eq, if_neg h]

theorem natDigits_ne_nil (n : Nat) : JS.natDigits n ≠ [] := by
  obtain ⟨c, cs, h, _⟩ := natDigits_head n
  rw [h]
  exact List.cons_ne_nil _ _

theorem natDigits_all_digits (n : Nat) : ∀ c ∈ JS.natDigits n, JS.isDigit c = true := by
  induction n using Nat.strong_induction_on with
  | _ n ih =>
    intro c hc
    by_cases h10 : n < 10
    · rw [natDigits_lt_ten n h10, List.mem_singleton] at hc
      subst hc
      exact isDigit_digitChar n
    · rw [natDigits_ge_ten n h10, List.mem_append, List.mem_singleton] at hc
      rcases hc with hc | hc
      · exact ih (n / 10) (Nat.div_lt_self (by omega) (by decide)) c hc
      · subst hc
        exact isDigit_digitChar _

theorem digitChar_toNat (d : Nat) (h : d < 10) : (JS.digitChar d).toNat - 48 = d := by
  interval_cases d <;> rfl

theorem digitsVal_append_singleton (l : List Char) (c : Char) :
    JS.digitsVal (l ++ [c]) = JS.digitsVal l * 10 + (c.toNat - 48) := by
  simp [JS.digitsVal, List.foldl_append]

theorem digitsVal_natDigits (n : Nat) : JS.digitsVal (JS.natDigits n) = n := by
  induction n using Nat.strong_induction_on with
  | _ n ih =>
    by_cases h10 : n < 10
    · rw [natDigits_lt_ten n h10]
      show 0 * 10 + ((JS.digitChar n).toNat - 48) = n
      rw [digitChar_toNat n h10]
      omega
    · rw [natDigits_ge_ten n h10, digitsVal_append_singleton,
        ih (n / 10) (Nat.div_lt_self (by omega) (by decide)),
        digitChar_toNat _ (Nat.mod_lt _ (by decide))]
      omega

theorem natDigits_mul_ten (s : Nat) (hs : 0 < s) :
    JS.natDigits (s * 10) = JS.natDigits s ++ ['0'] := by
  have h10 : ¬ s * 10 < 10 := by omega
  rw [natDigits_ge_ten _ h10, Nat.mul_div_cancel _ (by decide : 0 < 10), Nat.mul_mod_left]
  rfl

theorem natDigits_mul_pow (s j : Nat) (hs : 0 < s) :
    JS.natDigits (s * 10 ^ j) = JS.natDigits s ++ List.replicate j '0' := by
  induction j with
  | zero => simp
  | succ j ih =>
    rw [pow_succ, ← Nat.mul_assoc, natDigits_mul_ten _ (Nat.mul_pos hs (pow_pos (by decide) j)),
      ih, List.append_assoc]
    congr 1
    exact (List.replicate_succ' ..).symm

theorem lt_pow_length_natDigits (n : Nat) : n < 10 ^ (JS.natDigits n).length := by
  induction n using Nat.strong_induction_on with
  | _ n ih =>
    by_cases h10 : n < 10
    · rw [natDigits_lt_ten n h10]
      simpa using h10
    · rw [natDigits_ge_ten n h10, List.length_append, List.length_singleton, pow_succ]
      have := ih (n / 10) (Nat.div_lt_self (by omega) (by decide))
      omega

theorem length_natDigits_le (n d : Nat) (hd : 0 < d) (h : n < 10 ^ d) :
    (JS.natDigits n).length ≤ d := by
  induction n using Nat.strong_induction_on generalizing d with
  | _ n ih =>
    by_cases h10 : n < 10
    · rw [natDigits_lt_ten n h10]
      exact hd
    · rw [natDigits_ge_ten n h10, List.length_append, List.length_singleton]
      cases d with
      | zero => exact absurd hd (by decide)
      | succ d =>
        have hd0 : 0 < d := by
          rcases Nat.eq_zero_or_pos d with h0 | h0
          · subst h0
            simp at h
            omega
          · exact h0
        have hlt : n / 10 < 10 ^ d := by
          rw [pow_succ] at h
          exact Nat.div_lt_of_lt_mul (by rw [Nat.mul_comm]; exact h)
        have := ih (n / 10) (Nat.div_lt_self (by omega) (by decide)) d hd0 hlt
        omega

/-! ## Rounding of exactly representable values -/

theorem bitLenAux_spec (fuel n : Nat) (h : n ≤ fuel) (hn : 0 < n) :
    ∃ b, JS.bitLenAux fuel n = b + 1 ∧ 2 ^ b ≤ n ∧ n < 2 ^ (b + 1) := by
  induction fuel generalizing n with
  | zero => omega
  | succ fuel ih =>
    unfold JS.bitLenAux
    rw [if_neg (by omega)]
    by_cases h1 : n = 1
    · subst h1
      refine ⟨0, ?_, by decide, by decide⟩
      cases fuel <;> simp [JS.bitLenAux]
    · have hpos : 0 < n / 2 := Nat.div_pos (by omega) (by decide)
      obtain ⟨b, hb, hlo, hhi⟩ := ih (n / 2) (by omega) hpos
      refine ⟨b + 1, by rw [hb], ?_, ?_⟩
      · rw [pow_succ]; omega
      · rw [pow_succ]; omega

theorem bitLen_spec (n : Nat) (hn : 0 < n) :
    ∃ b, JS.bitLen n = b + 1 ∧ 2 ^ b ≤ n ∧ n < 2 ^ (b + 1) :=
  bitLenAux_spec n n (le_refl n) hn

theorem scaledDiv_eq (n d : Nat) (e : Int) :
    JS.scaledDiv n d e =
      ((n * 2 ^ (-e).toNat) / (d * 2 ^ e.toNat), (n * 2 ^ (-e).toNat) % (d * 2 ^ e.toNat),
        d * 2 ^ e.toNat) := by
  unfold JS.scaledDiv
  by_cases he : e < 0
  · have : e.toNat = 0 := by omega
    simp [he, this]
  · have : (-e).toNat = 0 := by omega
    simp [he, this]

theorem pow_lt_pow_cancel (a b : Nat) (h : 2 ^ a < 2 ^ b) : a < b :=
  (Nat.pow_lt_pow_iff_right (by decide : 1 < 2)).mp h

/-- The exponent estimate of `roundRat` is off by at most one. -/
theorem exponent_estimate (n d M : Nat) (E : Int) (hn : 0 < n) (hd : 0 < d)
    (hM1 : 2 ^ 52 ≤ M) (hM2 : M < 2 ^ 53)
    (hval : n * 2 ^ (-E).toNat = M * (d * 2 ^ E.toNat)) :
    E + 52 ≤ (JS.bitLen n : Int) - (JS.bitLen d : Int)
      ∧ (JS.bitLen n : Int) - (JS.bitLen d : Int) ≤ E + 53 := by
  obtain ⟨bn, hbn, hn1, hn2⟩ := bitLen_spec n hn
  obtain ⟨bd, hbd, hd1, hd2⟩ := bitLen_spec d hd
  rw [hbn, hbd]
  have hup : 2 ^ (bn + (-E).toNat) < 2 ^ (53 + (bd + 1) + E.toNat) := by
    calc 2 ^ (bn + (-E).toNat) = 2 ^ bn * 2 ^ (-E).toNat := pow_add _ _ _
      _ ≤ n * 2 ^ (-E).toNat := Nat.mul_le_mul_right _ hn1
      _ = M * (d * 2 ^ E.toNat) := hval
      _ < 2 ^ 53 * (2 ^ (bd + 1) * 2 ^ E.toNat) := by
          apply Nat.mul_lt_mul_of_lt_of_le hM2
          · exact Nat.mul_le_mul_right _ (le_of_lt hd2)
          · exact Nat.mul_pos (pow_pos (by decide) _) (pow_pos (by decide) _)
      _ = 2 ^ (53 + (bd + 1) + E.toNat) := by ring
  have hlo : 2 ^ (52 + bd + E.toNat) < 2 ^ (bn + 1 + (-E).toNat) := by
    calc 2 ^ (52 + bd + E.toNat) = 2 ^ 52 * (2 ^ bd * 2 ^ E.toNat) := by ring
      _ ≤ M * (d * 2 ^ E.toNat) :=
          Nat.mul_le_mul hM1 (Nat.mul_le_mul_right _ hd1)
      _ = n * 2 ^ (-E).toNat := hval.symm
      _ < 2 ^ (bn + 1) * 2 ^ (-E).toNat :=
          Nat.mul_lt_mul_of_pos_right hn2 (pow_pos (by decide) _)
      _ = 2 ^ (bn + 1 + (-E).toNat) := (pow_add _ _ _).symm
  have h1 := pow_lt_pow_cancel _ _ hup
  have h2 := pow_lt_pow_cancel _ _ hlo
  omega

theorem scaledDiv_exact (n d M : Nat) (E : Int) (hd : 0 < d)
    (hval : n * 2 ^ (-E).toNat = M * (d * 2 ^ E.toNat)) :
    JS.scaledDiv n d E = (M, 0, d * 2 ^ E.toNat) := by
  have hpos : 0 < d * 2 ^ E.toNat := Nat.mul_pos hd (pow_pos (by decide) _)
  rw [scaledDiv_eq, hval, Nat.mul_div_cancel _ hpos, Nat.mul_mod_left]

theorem scaledDiv_exact_pred (n d M : Nat) (E : Int) (hd : 0 < d)
    (hval : n * 2 ^ (-E).toNat = M * (d * 2 ^ E.toNat)) :
    (JS.scaledDiv n d (E - 1)).1 = 2 * M := by
  have hval2 : n * 2 ^ (-(E - 1)).toNat = (2 * M) * (d * 2 ^ (E - 1).toNat) := by
    by_cases hE : 1 ≤ E
    · have h1 : (-(E - 1)).toNat = 0 := by omega
      have h2 : (-E).toNat = 0 := by omega
      have h3 : E.toNat = (E - 1).toNat + 1 := by omega
      rw [h1]
      rw [h2, h3, pow_succ] at hval
      rw [hval]
      ring
    · have h1 : (-(E - 1)).toNat = (-E).toNat + 1 := by omega
      have h2 : (E - 1).toNat = 0 := by omega
      have h3 : E.toNat = 0 := by omega
      rw [h1, h2, pow_succ]
      rw [h3] at hval
      calc n * (2 ^ (-E).toNat * 2) = (n * 2 ^ (-E).toNat) * 2 := by ring
        _ = (M * (d * 2 ^ 0)) * 2 := by rw [hval]
        _ = 2 * M * (d * 2 ^ 0) := by ring
  rw [scaledDiv_exact n d (2 * M) (E - 1) hd hval2]

/-- A value `M * 2^E` with a 53-bit significand and an exponent in range is
rounded to itself. -/
theorem roundRat_exact (s : Bool) (n d M : Nat) (E : Int) (hd : 0 < d)
    (hM1 : 2 ^ 52 ≤ M) (hM2 : M < 2 ^ 53) (hE1 : -1074 ≤ E) (hE2 : E ≤ 971)
    (hval : n * 2 ^ (-E).toNat = M * (d * 2 ^ E.toNat)) :
    JS.roundRat s n d = JS.Num.fin s M E := by
  have hMpos : 0 < M := lt_of_lt_of_le (by decide) hM1
  have hn : 0 < n := by
    rcases Nat.eq_zero_or_pos n with h0 | h0
    · rw [h0, Nat.zero_mul] at hval
      have := Nat.mul_pos hMpos (Nat.mul_pos hd (pow_pos (by decide : 0 < 2) E.toNat))
      omega
    · exact h0
  obtain ⟨hk1, hk2⟩ := exponent_estimate n d M E hn hd hM1 hM2 hval
  have he1 : (if (JS.scaledDiv n d ((JS.bitLen n : Int) - (JS.bitLen d : Int) - 53)).1 ≥ 2 ^ 53
      then (JS.bitLen n : Int) - (JS.bitLen d : Int) - 53 + 1
      else (JS.bitLen n : Int) - (JS.bitLen d : Int) - 53) = E := by
    by_cases hk : (JS.bitLen n : Int) - (JS.bitLen d : Int) - 53 = E
    · rw [hk, scaledDiv_exact n d M E hd hval, if_neg (by simp only [ge_iff_le]; omega)]
    · have hk' : (JS.bitLen n : Int) - (JS.bitLen d : Int) - 53 = E - 1 := by omega
      rw [hk', scaledDiv_exact_pred n d M E hd hval, if_pos (by simp only [ge_iff_le]; omega)]
      omega
  have he : (if E < -1074 then (-1074 : Int) else E) = E := if_neg (by omega)
  have hpos : 0 < d * 2 ^ E.toNat := Nat.mul_pos hd (pow_pos (by decide) _)
  have hup : (decide (d * 2 ^ E.toNat < 2 * 0) ||
      (decide (2 * 0 = d * 2 ^ E.toNat) && decide (M % 2 = 1))) = false := by
    have h1 : ¬ d * 2 ^ E.toNat < 2 * 0 := by omega
    have h2 : ¬ 2 * 0 = d * 2 ^ E.toNat := by omega
    rw [decide_eq_false h1, decide_eq_false h2]
    rfl
  have hn0 : n ≠ 0 := by omega
  have hM53 : M ≠ 2 ^ 53 := by omega
  have hM0 : M ≠ 0 := by omega
  have hE' : ¬ E > 971 := by omega
  unfold JS.roundRat
  simp only [he1, he, scaledDiv_exact n d M E hd hval, hup, hn0, hM53, hM0, hE',
    Bool.false_eq_true, if_false]

theorem bitLen_one : JS.bitLen 1 = 1 := by decide

/-- An integer below `2^53` is rounded to itself, whatever the denominator it
is written over. -/
theorem roundRat_int (s : Bool) (N d : Nat) (hN : 0 < N) (hN2 : N < 2 ^ 53) (hd : 0 < d) :
    2 ^ 52 ≤ N * 2 ^ (53 - JS.bitLen N) ∧ N * 2 ^ (53 - JS.bitLen N) < 2 ^ 53
      ∧ 1 ≤ JS.bitLen N ∧ JS.bitLen N ≤ 53
      ∧ JS.roundRat s (N * d) d
          = JS.Num.fin s (N * 2 ^ (53 - JS.bitLen N)) ((JS.bitLen N : Int) - 53) := by
  obtain ⟨b, hbl, hb1, hb2⟩ := bitLen_spec N hN
  have hb : b < 53 := pow_lt_pow_cancel _ _ (lt_of_le_of_lt hb1 hN2)
  rw [hbl]
  have h53 : 53 - (b + 1) = 52 - b := by omega
  have hE : (-(((b + 1 : Nat) : Int) - 53)).toNat = 52 - b := by omega
  have hE0 : ((((b + 1 : Nat) : Int) - 53)).toNat = 0 := by omega
  have hM1 : 2 ^ 52 ≤ N * 2 ^ (52 - b) := by
    calc 2 ^ 52 = 2 ^ b * 2 ^ (52 - b) := by rw [← pow_add]; congr 1; omega
      _ ≤ N * 2 ^ (52 - b) := Nat.mul_le_mul_right _ hb1
  have hM2 : N * 2 ^ (52 - b) < 2 ^ 53 := by
    calc N * 2 ^ (52 - b) < 2 ^ (b + 1) * 2 ^ (52 - b) :=
          Nat.mul_lt_mul_of_pos_right hb2 (pow_pos (by decide) _)
      _ = 2 ^ 53 := by rw [← pow_add]; congr 1; omega
  rw [h53]
  refine ⟨hM1, hM2, by omega, by omega, ?_⟩
  apply roundRat_exact s (N * d) d _ _ hd hM1 hM2 (by omega) (by omega)
  rw [hE, hE0]
  ring

theorem roundRat_int_den (s : Bool) (N d : Nat) (hN : 0 < N) (hN2 : N < 2 ^ 53)
    (hd : 0 < d) : JS.roundRat s (N * d) d = JS.roundRat s N 1 := by
  have h1 := (roundRat_int s N d hN hN2 hd).2.2.2.2
  have h2 := (roundRat_int s N 1 hN hN2 (by decide)).2.2.2.2
  rw [Nat.mul_one] at h2
  rw [h1, h2]

theorem roundRat_zero (s : Bool) (d : Nat) : JS.roundRat s 0 d = JS.Num.fin s 0 0 := by
  unfold JS.roundRat
  rw [if_pos rfl]

/-- An integer from `2^53` on is rounded to a value with a positive exponent,
or to an infinity. -/
theorem roundRat_big (s : Bool) (c : Nat) (hc : 2 ^ 53 ≤ c) (M : Nat) (E : Int)
    (hM : M ≠ 0) (hE : E ≤ 0) : JS.roundRat s c 1 ≠ JS.Num.fin s M E := by
  have hc0 : 0 < c := lt_of_lt_of_le (by decide) hc
  obtain ⟨b, hbl, hb1, hb2⟩ := bitLen_spec c hc0
  have hb : 53 ≤ b := by
    have := pow_lt_pow_cancel _ _ (lt_of_le_of_lt hc hb2)
    omega
  have hk : (JS.bitLen c : Int) - (JS.bitLen 1 : Int) - 53 = ((b - 53 : Nat) : Int) := by
    rw [hbl, bitLen_one]
    omega
  have hq : (JS.scaledDiv c 1 ((b - 53 : Nat) : Int)).1 ≥ 2 ^ 53 := by
    rw [scaledDiv_eq]
    have h1 : (-((b - 53 : Nat) : Int)).toNat = 0 := by omega
    have h2 : (((b - 53 : Nat) : Int)).toNat = b - 53 := by omega
    simp only [h1, h2, pow_zero, Nat.mul_one, Nat.one_mul, ge_iff_le]
    rw [Nat.le_div_iff_mul_le (pow_pos (by decide) _)]
    calc 2 ^ 53 * 2 ^ (b - 53) = 2 ^ b := by rw [← pow_add]; congr 1; omega
      _ ≤ c := hb1
  have he : ¬ (((b - 53 : Nat) : Int) + 1 < -1074) := by omega
  unfold JS.roundRat
  simp only [hk, if_pos hq, if_neg he]
  intro h
  split_ifs at h <;> simp only [JS.Num.fin.injEq, reduceCtorEq] at h <;> omega

theorem roundRat_int_inj (N c : Nat) (hN : 0 < N) (hN2 : N < 2 ^ 53)
    (h : JS.roundRat false c 1 = JS.roundRat false N 1) : c = N := by
  obtain ⟨hM1, hM2, hb1, hb2, hr⟩ := roundRat_int false N 1 hN hN2 (by decide)
  rw [Nat.mul_one] at hr
  rw [hr] at h
  rcases Nat.eq_zero_or_pos c with h0 | h0
  · subst h0
    rw [roundRat_zero] at h
    simp only [JS.Num.fin.injEq] at h
    omega
  · by_cases hc : c < 2 ^ 53
    · obtain ⟨_, _, hc1, hc2, hr'⟩ := roundRat_int false c 1 h0 hc (by decide)
      rw [Nat.mul_one] at hr'
      rw [hr'] at h
      simp only [JS.Num.fin.injEq, true_and] at h
      obtain ⟨h1, h2⟩ := h
      have hbl : JS.bitLen c = JS.bitLen N := by omega
      rw [hbl] at h1
      exact Nat.eq_of_mul_eq_mul_right (pow_pos (by decide) _) h1
    · exact absurd h (roundRat_big false c (by omega) _ _ (by omega) (by omega))

theorem roundRat_int_eq_iff (N c : Nat) (hN : 0 < N) (hN2 : N < 2 ^ 53) :
    JS.roundRat false c 1 = JS.roundRat false N 1 ↔ c = N :=
  ⟨roundRat_int_inj N c hN hN2, fun h => by rw [h]⟩

/-! ## The text of an integer-valued Number -/

theorem roundsTo_int (N den c k L : Nat) (hN : 0 < N) (hN2 : N < 2 ^ 53) (hden : 0 < den)
    (hk : k ≤ L) :
    JS.roundsTo (N * den) den c ((k : Int) - (L : Int)) = decide (c * 10 ^ (L - k) = N) := by
  unfold JS.roundsTo
  have h1 : (if (k : Int) - (L : Int) ≥ 0 then c
      else c * 10 ^ (-((k : Int) - (L : Int))).toNat) = c * 10 ^ (L - k) := by
    by_cases h : (k : Int) - (L : Int) ≥ 0
    · have : L - k = 0 := by omega
      rw [if_pos h, this, pow_zero, Nat.mul_one]
    · have : (-((k : Int) - (L : Int))).toNat = L - k := by omega
      rw [if_neg h, this]
  have h2 : (if (k : Int) - (L : Int) ≥ 0 then 10 ^ ((k : Int) - (L : Int)).toNat else 1)
      = 1 := by
    by_cases h : (k : Int) - (L : Int) ≥ 0
    · have : ((k : Int) - (L : Int)).toNat = 0 := by omega
      rw [if_pos h, this, pow_zero]
    · rw [if_neg h]
  rw [h1, h2, roundRat_int_den false N den hN hN2 hden]
  exact decide_eq_decide.mpr (roundRat_int_eq_iff N _ hN hN2)

theorem digitsAt_int_sound (N den k L : Nat) (hN : 0 < N) (hN2 : N < 2 ^ 53)
    (hden : 0 < den) (hk : k ≤ L) (hL : N < 10 ^ L) (s : Nat) (n : Int)
    (h : JS.digitsAt (N * den) den (L : Int) k = some (s, n)) :
    s * 10 ^ (L - k) = N ∧ n = (L : Int) := by
  unfold JS.digitsAt at h
  simp only [roundsTo_int N den _ k L hN hN2 hden hk] at h
  have key : ∀ p : Nat, p * 10 ^ (L - k) = N → p ≠ 10 ^ k := by
    intro p hp hpk
    rw [hpk, ← pow_add] at hp
    have : k + (L - k) = L := by omega
    rw [this] at hp
    omega
  split at h
  · exact absurd h (by simp)
  · rename_i p hpick
    have hp : p * 10 ^ (L - k) = N := by
      split_ifs at hpick with h1 h2 h3 h4 h5 h6 <;>
        simp only [Option.some.injEq, reduceCtorEq] at hpick <;> subst hpick <;>
        simp only [Bool.and_eq_true, decide_eq_true_eq] at * <;>
        first | assumption | exact (‹_ ∧ _›).1 | exact (‹_ ∧ _›).2
    rw [if_neg (key p hp)] at h
    simp only [Option.some.injEq, Prod.mk.injEq] at h
    rw [← h.1, ← h.2]
    exact ⟨hp, rfl⟩

theorem digitsAt_int_complete (N den L : Nat) (hN : 0 < N) (hN2 : N < 2 ^ 53)
    (hden : 0 < den) : JS.digitsAt (N * den) den (L : Int) L ≠ none := by
  unfold JS.digitsAt
  simp only [roundsTo_int N den _ L L hN hN2 hden (le_refl L)]
  have hsh : (L : Int) - (L : Int) ≥ 0 := by omega
  have hlo : (if (L : Int) - (L : Int) ≥ 0 then
      N * den * 10 ^ ((L : Int) - (L : Int)).toNat else N * den) /
      (if (L : Int) - (L : Int) ≥ 0 then den
        else den * 10 ^ (-((L : Int) - (L : Int))).toNat) = N := by
    have : ((L : Int) - (L : Int)).toNat = 0 := by omega
    rw [if_pos hsh, if_pos hsh, this, pow_zero, Nat.mul_one, Nat.mul_div_cancel _ hden]
  simp only [hlo, Nat.sub_self, pow_zero, Nat.mul_one, decide_True, Bool.true_and]
  intro h
  split at h
  · rename_i hpick
    split_ifs at hpick
  · split_ifs at h

theorem shortestAux_int (N den L : Nat) (hN : 0 < N) (hN2 : N < 2 ^ 53) (hden : 0 < den)
    (hL : N < 10 ^ L) (fuel k : Nat) (hk : k ≤ L) (hf : L < k + fuel) :
    ∃ k2 s, JS.shortestAux (N * den) den (L : Int) fuel k = (k2, s, (L : Int))
      ∧ k2 ≤ L ∧ s * 10 ^ (L - k2) = N := by
  induction fuel generalizing k with
  | zero => omega
  | succ fuel ih =>
    unfold JS.shortestAux
    cases hd : JS.digitsAt (N * den) den (L : Int) k with
    | none =>
      have hkL : k ≠ L := by
        intro hkl
        rw [hkl] at hd
        exact digitsAt_int_complete N den L hN hN2 hden hd
      exact ih (k + 1) (by omega) (by omega)
    | some r =>
      obtain ⟨s, n⟩ := r
      obtain ⟨h1, h2⟩ := digitsAt_int_sound N den k L hN hN2 hden hk hL s n hd
      exact ⟨k, s, by rw [h2], hk, h1⟩

theorem decExp_int (N den : Nat) (hN : 0 < N) (hden : 0 < den) :
    JS.decExp (N * den) den = ((JS.natDigits N).length : Int) := by
  unfold JS.decExp
  have : N * den ≥ den := Nat.le_mul_of_pos_left den hN
  rw [if_pos this, Nat.mul_div_cancel _ hden]

theorem renderDigits_int (N k s L : Nat) (hN : 0 < N) (hk : k ≤ L) (hL : L ≤ 21)
    (hs : s * 10 ^ (L - k) = N) :
    JS.renderDigits k s (L : Int) = JS.natDigits N := by
  have hs0 : 0 < s := by
    rcases Nat.eq_zero_or_pos s with h0 | h0
    · rw [h0, Nat.zero_mul] at hs
      omega
    · exact h0
  unfold JS.renderDigits
  have hc : (k : Int) ≤ (L : Int) ∧ (L : Int) ≤ 21 := ⟨by omega, by omega⟩
  simp only [hc, and_self, if_true]
  have : ((L : Int) - (k : Int)).toNat = L - k := by omega
  rw [this, ← natDigits_mul_pow s (L - k) hs0, hs]

theorem fracOf_int (N M : Nat) (E : Int) (hE : E ≤ 0) (hM : M = N * 2 ^ (-E).toNat) :
    JS.fracOf M E = (N * 2 ^ (-E).toNat, 2 ^ (-E).toNat) := by
  unfold JS.fracOf
  by_cases h : E < 0
  · rw [if_pos h, hM]
  · have h0 : E = 0 := by omega
    subst h0
    rw [if_neg h, hM]
    simp

theorem length_natDigits_safe (N : Nat) (hN2 : N < 2 ^ 53) : (JS.natDigits N).length ≤ 16 :=
  length_natDigits_le N 16 (by decide) (lt_trans hN2 (by decide))

/-- The text of a Number whose value is the integer `±N`, `0 < N < 2^53`. -/
theorem numberToString_int (s : Bool) (N M : Nat) (E : Int) (hN : 0 < N) (hN2 : N < 2 ^ 53)
    (hE : E ≤ 0) (hM : M = N * 2 ^ (-E).toNat) :
    JS.numberToString (JS.Num.fin s M E)
      = String.mk ((if s = true then ['-'] else []) ++ JS.natDigits N) := by
  have hden : 0 < 2 ^ (-E).toNat := pow_pos (by decide) _
  have hM0 : M ≠ 0 := by
    rw [hM]
    exact Nat.mul_ne_zero (by omega) (by omega)
  have hL := lt_pow_length_natDigits N
  have hL16 := length_natDigits_safe N hN2
  simp only [JS.numberToString, if_neg hM0, fracOf_int N M E hE hM, JS.shortest,
    decExp_int N _ hN hden]
  obtain ⟨k2, s2, hsh, hk2, hs2⟩ := shortestAux_int N (2 ^ (-E).toNat) (JS.natDigits N).length
    hN hN2 hden hL 1100 1
    (Nat.succ_le_of_lt (List.length_pos.mpr (natDigits_ne_nil N))) (by omega)
  rw [hsh]
  simp only
  rw [renderDigits_int N k2 s2 _ hN hk2 (by omega) hs2]

/-! ## Integer operands -/

theorem isDigit_not_whiteSpace (c : Char) (h : JS.isDigit c = true) :
    JS.isWhiteSpace c = false := by
  simp only [JS.isDigit, Bool.and_eq_true, decide_eq_true_eq] at h
  simp only [JS.isWhiteSpace, List.mem_cons, List.mem_singleton, List.not_mem_nil, or_false,
    Bool.or_eq_false_iff, Bool.and_eq_false_iff, decide_eq_false_iff_not]
  omega

theorem dropWhile_of_head (p : Char → Bool) (c : Char) (cs : List Char) (h : p c = false) :
    (c :: cs).dropWhile p = c :: cs := by
  simp [List.dropWhile_cons, h]

theorem trim_of_ends (l : List Char) (c d : Char) (cs ds : List Char)
    (h1 : l = c :: cs) (h2 : l.reverse = d :: ds)
    (hc : JS.isWhiteSpace c = false) (hd : JS.isWhiteSpace d = false) : JS.trim l = l := by
  unfold JS.trim
  rw [h1, dropWhile_of_head _ c cs hc, ← h1, h2, dropWhile_of_head _ d ds hd, ← h2,
    List.reverse_reverse]

theorem natDigits_last (n : Nat) :
    ∃ d ds, (JS.natDigits n).reverse = d :: ds ∧ JS.isDigit d = true := by
  have hne := natDigits_ne_nil n
  have hr : (JS.natDigits n).reverse ≠ [] := by simpa using hne
  cases h : (JS.natDigits n).reverse with
  | nil => exact absurd h hr
  | cons d ds =>
    refine ⟨d, ds, rfl, natDigits_all_digits n d ?_⟩
    have : d ∈ (JS.natDigits n).reverse := by rw [h]; simp
    simpa using this

theorem trim_intText (z : Int) : JS.trim (intText z).data = (intText z).data := by
  obtain ⟨c, cs, hc, hcd⟩ := natDigits_head z.natAbs
  obtain ⟨d, ds, hd, hdd⟩ := natDigits_last z.natAbs
  unfold intText
  by_cases hz : z < 0
  · simp only [hz, if_true, List.singleton_append]
    apply trim_of_ends _ '-' d (JS.natDigits z.natAbs) (ds ++ ['-']) rfl
    · rw [List.reverse_cons, hd]; rfl
    · decide
    · exact isDigit_not_whiteSpace d hdd
  · simp only [hz, if_false, List.nil_append]
    exact trim_of_ends _ c d cs ds hc hd (isDigit_not_whiteSpace c hcd)
      (isDigit_not_whiteSpace d hdd)

theorem takeWhile_all (p : Char → Bool) (l : List Char) (h : ∀ c ∈ l, p c = true) :
    l.takeWhile p = l := by
  induction l with
  | nil => rfl
  | cons a l ih =>
    rw [List.takeWhile_cons, if_pos (h a (List.mem_cons_self _ _)),
      ih (fun c hc => h c (List.mem_cons_of_mem _ hc))]

theorem dropWhile_all (p : Char → Bool) (l : List Char) (h : ∀ c ∈ l, p c = true) :
    l.dropWhile p = [] := by
  induction l with
  | nil => rfl
  | cons a l ih =>
    rw [List.dropWhile_cons, if_pos (h a (List.mem_cons_self _ _)),
      ih (fun c hc => h c (List.mem_cons_of_mem _ hc))]

theorem parseUnsigned_digits (s : Bool) (l : List Char) (hne : l ≠ [])
    (h : ∀ c ∈ l, JS.isDigit c = true) :
    JS.parseUnsigned s l = JS.roundRat s (JS.digitsVal l) 1 := by
  have hinf : l ≠ ['I', 'n', 'f', 'i', 'n', 'i', 't', 'y'] := by
    intro he
    have := h 'I' (by rw [he]; simp)
    exact absurd this (by decide)
  unfold JS.parseUnsigned
  simp only [if_neg hinf, takeWhile_all _ l h, dropWhile_all _ l h, hne, false_and, if_false]
  simp [JS.decimalValue]

theorem parseNumeric_digits (l : List Char) (hne : l ≠ [])
    (h : ∀ c ∈ l, JS.isDigit c = true) :
    JS.parseNumeric l = JS.parseUnsigned false l := by
  have hx : ∀ (a c : Char) (r : List Char), l = a :: c :: r → JS.isDigit c = true :=
    fun a c r he => h c (by rw [he]; simp)
  have h0 : ∀ (a : Char) (r : List Char), l = a :: r → JS.isDigit a = true :=
    fun a r he => h a (by rw [he]; simp)
  unfold JS.parseNumeric
  split
  · exact absurd rfl hne
  · exact absurd (hx _ _ _ rfl) (by decide)
  · exact absurd (hx _ _ _ rfl) (by decide)
  · exact absurd (hx _ _ _ rfl) (by decide)
  · exact absurd (hx _ _ _ rfl) (by decide)
  · exact absurd (hx _ _ _ rfl) (by decide)
  · exact absurd (hx _ _ _ rfl) (by decide)
  · exact absurd (h0 _ _ rfl) (by decide)
  · exact absurd (h0 _ _ rfl) (by decide)
  · rfl

theorem toNumber_natDigits (n : Nat) :
    JS.parseNumeric (JS.natDigits n) = JS.roundRat false n 1 := by
  rw [parseNumeric_digits _ (natDigits_ne_nil n) (natDigits_all_digits n),
    parseUnsigned_digits _ _ (natDigits_ne_nil n) (natDigits_all_digits n),
    digitsVal_natDigits]

theorem toNumber_intText (z : Int) :
    JS.toNumber (intText z) = JS.roundRat (decide (z < 0)) z.natAbs 1 := by
  unfold JS.toNumber
  rw [trim_intText]
  unfold intText
  by_cases hz : z < 0
  · simp only [hz, if_true, List.singleton_append, decide_True]
    show JS.parseUnsigned true (JS.natDigits z.natAbs) = _
    rw [parseUnsigned_digits _ _ (natDigits_ne_nil _) (natDigits_all_digits _),
      digitsVal_natDigits]
  · simp only [hz, if_false, List.nil_append, decide_False]
    exact toNumber_natDigits _

theorem signed_natAbs (s : Bool) (m : Nat) : (JS.signed s m).natAbs = m := by
  unfold JS.signed
  cases s <;> simp

theorem signed_mul (s : Bool) (m k : Nat) : JS.signed s (m * k) = JS.signed s m * (k : Int) := by
  unfold JS.signed
  cases s <;> simp

theorem signed_decide (z : Int) : JS.signed (decide (z < 0)) z.natAbs = z := by
  unfold JS.signed
  by_cases hz : z < 0
  · simp only [hz, decide_True, if_true]
    omega
  · simp only [hz, decide_False, Bool.false_eq_true, if_false]
    omega

theorem represents_roundRat (z : Int) (hz : z.natAbs < 2 ^ 53) :
    Represents (JS.roundRat (decide (z < 0)) z.natAbs 1) z := by
  rcases Nat.eq_zero_or_pos z.natAbs with h0 | h0
  · have hz0 : z = 0 := Int.natAbs_eq_zero.mp h0
    subst hz0
    exact ⟨false, 0, 0, by decide, le_refl 0, by decide⟩
  · obtain ⟨_, _, hb1, hb2, hr⟩ := roundRat_int (decide (z < 0)) z.natAbs 1 h0 hz (by decide)
    rw [Nat.mul_one] at hr
    refine ⟨_, _, _, hr, by omega, ?_⟩
    have : (-((JS.bitLen z.natAbs : Int) - 53)).toNat = 53 - JS.bitLen z.natAbs := by omega
    rw [this, signed_mul, signed_decide]
    push_cast
    rfl

theorem represents_toNumber (z : Int) (hz : z.natAbs < 2 ^ 53) :
    Represents (JS.toNumber (intText z)) z := by
  rw [toNumber_intText]
  exact represents_roundRat z hz

/-- A Number whose scaled value is the integer `total * 2^g` is `Represents`
of that integer after rounding. -/
theorem represents_round_scaled (z : Int) (hz : z.natAbs < 2 ^ 53) (hz0 : z ≠ 0) (g : Int)
    (hg : g ≤ 0) (sgn : Bool) (hs : sgn = decide (z < 0)) :
    Represents (JS.roundRat sgn (JS.fracOf (z.natAbs * 2 ^ (-g).toNat) g).1
      (JS.fracOf (z.natAbs * 2 ^ (-g).toNat) g).2) z := by
  have hpos : 0 < z.natAbs := Int.natAbs_pos.mpr hz0
  rw [fracOf_int z.natAbs _ g hg rfl]
  simp only
  rw [roundRat_int_den sgn z.natAbs _ hpos hz (pow_pos (by decide) _), hs]
  exact represents_roundRat z hz

theorem represents_neg (v : JS.Num) (z : Int) (h : Represents v z) :
    Represents (JS.neg v) (-z) := by
  obtain ⟨s, m, e, rfl, he, hv⟩ := h
  refine ⟨!s, m, e, rfl, he, ?_⟩
  rw [Int.neg_mul, ← hv]
  unfold JS.signed
  cases s <;> simp

theorem represents_add (a b : JS.Num) (x y : Int) (ha : Represents a x) (hb : Represents b y)
    (hz : (x + y).natAbs < 2 ^ 53) : Represents (JS.add a b) (x + y) := by
  obtain ⟨s, m, e, rfl, he, hm⟩ := ha
  obtain ⟨t, n, f, rfl, hf, hn⟩ := hb
  simp only [JS.add]
  have hg0 : (if e ≤ f then e else f) ≤ 0 := by split <;> omega
  have hge : (if e ≤ f then e else f) ≤ e := by split <;> omega
  have hgf : (if e ≤ f then e else f) ≤ f := by split <;> omega
  generalize (if e ≤ f then e else f) = g at hg0 hge hgf
  have h1 : JS.signed s (m * 2 ^ (e - g).toNat) = x * 2 ^ (-g).toNat := by
    rw [signed_mul, hm]
    have : (-g).toNat = (-e).toNat + (e - g).toNat := by omega
    rw [this, pow_add]
    push_cast
    ring
  have h2 : JS.signed t (n * 2 ^ (f - g).toNat) = y * 2 ^ (-g).toNat := by
    rw [signed_mul, hn]
    have : (-g).toNat = (-f).toNat + (f - g).toNat := by omega
    rw [this, pow_add]
    push_cast
    ring
  have htot : JS.signed s (m * 2 ^ (e - g).toNat) + JS.signed t (n * 2 ^ (f - g).toNat)
      = (x + y) * 2 ^ (-g).toNat := by
    rw [h1, h2]
    ring
  rw [htot]
  have hpow : (0 : Int) < 2 ^ (-g).toNat := pow_pos (by decide) _
  by_cases hxy : x + y = 0
  · rw [hxy, Int.zero_mul, if_pos rfl]
    exact ⟨_, 0, 0, rfl, le_refl 0, by simp [JS.signed]⟩
  · have hne : (x + y) * 2 ^ (-g).toNat ≠ 0 := Int.mul_ne_zero hxy (ne_of_gt hpow)
    rw [if_neg hne]
    have habs : ((x + y) * 2 ^ (-g).toNat).natAbs = (x + y).natAbs * 2 ^ (-g).toNat := by
      rw [Int.natAbs_mul, Int.natAbs_pow]
      rfl
    rw [habs]
    apply represents_round_scaled (x + y) hz hxy g hg0
    apply decide_eq_decide.mpr
    constructor
    · intro h
      by_contra hc
      have : 0 ≤ (x + y) * 2 ^ (-g).toNat := Int.mul_nonneg (by omega) (le_of_lt hpow)
      omega
    · intro h
      exact Int.mul_neg_of_neg_of_pos h hpow

theorem represents_sub (a b : JS.Num) (x y : Int) (ha : Represents a x) (hb : Represents b y)
    (hz : (x - y).natAbs < 2 ^ 53) : Represents (JS.sub a b) (x - y) := by
  unfold JS.sub
  rw [Int.sub_eq_add_neg] at hz ⊢
  exact represents_add a (JS.neg b) x (-y) ha (represents_neg b y hb) hz

theorem represents_sign (s : Bool) (m : Nat) (z : Int) (k : Nat)
    (h : JS.signed s m = z * 2 ^ k) (hz : z ≠ 0) : s = decide (z < 0) := by
  have hpow : (0 : Int) < 2 ^ k := pow_pos (by decide) _
  unfold JS.signed at h
  cases s
  · simp only [Bool.false_eq_true, if_false] at h
    have : ¬ z < 0 := by
      intro hneg
      have := Int.mul_neg_of_neg_of_pos hneg hpow
      omega
    simp [this]
  · simp only [if_true] at h
    have : z < 0 := by
      by_contra hc
      have h0 : 0 ≤ z * 2 ^ k := Int.mul_nonneg (by omega) (le_of_lt hpow)
      have h1 : z * 2 ^ k ≠ 0 := Int.mul_ne_zero hz (ne_of_gt hpow)
      omega
    simp [this]

theorem represents_mul (a b : JS.Num) (x y : Int) (ha : Represents a x) (hb : Represents b y)
    (hz : (x * y).natAbs < 2 ^ 53) : Represents (JS.mul a b) (x * y) := by
  obtain ⟨s, m, e, rfl, he, hm⟩ := ha
  obtain ⟨t, n, f, rfl, hf, hn⟩ := hb
  simp only [JS.mul]
  have hma : m = x.natAbs * 2 ^ (-e).toNat := by
    have := congrArg Int.natAbs hm
    rwa [signed_natAbs, Int.natAbs_mul, Int.natAbs_pow] at this
  have hna : n = y.natAbs * 2 ^ (-f).toNat := by
    have := congrArg Int.natAbs hn
    rwa [signed_natAbs, Int.natAbs_mul, Int.natAbs_pow] at this
  have hmn : m * n = (x * y).natAbs * 2 ^ (-(e + f)).toNat := by
    have : (-(e + f)).toNat = (-e).toNat + (-f).toNat := by omega
    rw [hma, hna, this, pow_add, Int.natAbs_mul]
    ring
  by_cases hxy : x * y = 0
  · have h0 : m * n = 0 := by rw [hmn, hxy]; simp
    rw [h0]
    have : (JS.fracOf 0 (e + f)).1 = 0 := by
      unfold JS.fracOf
      split <;> simp
    rw [this, roundRat_zero]
    exact ⟨_, 0, 0, rfl, le_refl 0, by simp [JS.signed, hxy]⟩
  · have hx : x ≠ 0 := fun h => hxy (by rw [h, Int.zero_mul])
    have hy : y ≠ 0 := fun h => hxy (by rw [h, Int.mul_zero])
    rw [hmn]
    apply represents_round_scaled (x * y) hz hxy (e + f) (by omega)
    rw [represents_sign s m x _ hm hx, represents_sign t n y _ hn hy]
    rcases lt_trichotomy x 0 with h1 | h1 | h1
    · rcases lt_trichotomy y 0 with h2 | h2 | h2
      · have : ¬ x * y < 0 := not_lt.mpr (le_of_lt (Int.mul_pos_of_neg_of_neg h1 h2))
        simp [h1, h2, this]
      · exact absurd h2 hy
      · have : x * y < 0 := Int.mul_neg_of_neg_of_pos h1 h2
        have h2' : ¬ y < 0 := by omega
        simp [h1, h2', this]
    · exact absurd h1 hx
    · have h1' : ¬ x < 0 := by omega
      rcases lt_trichotomy y 0 with h2 | h2 | h2
      · have : x * y < 0 := Int.mul_neg_of_pos_of_neg h1 h2
        simp [h1', h2, this]
      · exact absurd h2 hy
      · have : ¬ x * y < 0 := not_lt.mpr (le_of_lt (Int.mul_pos h1 h2))
        have h2' : ¬ y < 0 := by omega
        simp [h1', h2', this]

theorem numberToString_represents (v : JS.Num) (z : Int) (h : Represents v z)
    (hz : z.natAbs < 2 ^ 53) : JS.numberToString v = intText z := by
  obtain ⟨s, m, e, rfl, he, hm⟩ := h
  have hma : m = z.natAbs * 2 ^ (-e).toNat := by
    have := congrArg Int.natAbs hm
    rwa [signed_natAbs, Int.natAbs_mul, Int.natAbs_pow] at this
  by_cases hz0 : z = 0
  · subst hz0
    have : m = 0 := by rw [hma]; simp
    subst this
    rfl
  · have hpos : 0 < z.natAbs := Int.natAbs_pos.mpr hz0
    rw [numberToString_int s z.natAbs m e hpos hz he hma, represents_sign s m z _ hm hz0]
    unfold intText
    simp

theorem isFinite_represents (v : JS.Num) (z : Int) (h : Represents v z) :
    JS.isFinite v = true := by
  obtain ⟨s, m, e, rfl, _, _⟩ := h
  rfl

theorem intText_ne_error (z : Int) : intText z ≠ "Error" := by
  intro he
  have hd : (if z < 0 then ['-'] else []) ++ JS.natDigits z.natAbs
      = ['E', 'r', 'r', 'o', 'r'] := congrArg String.data he
  obtain ⟨c, cs, hc, hcd⟩ := natDigits_head z.natAbs
  rw [hc] at hd
  split at hd
  · simp at hd
  · simp only [List.nil_append, List.cons.injEq] at hd
    rw [hd.1] at hcd
    exact absurd hcd (by decide)

theorem performCalculation_add (a b : String) (h1 : JS.isFinite (JS.toNumber a) = true)
    (h2 : JS.isFinite (JS.toNumber b) = true) :
    performCalculation a b "+" = JS.numberToString (JS.add (JS.toNumber a) (JS.toNumber b)) := by
  simp [performCalculation, h1, h2]

theorem performCalculation_sub (a b : String) (h1 : JS.isFinite (JS.toNumber a) = true)
    (h2 : JS.isFinite (JS.toNumber b) = true) :
    performCalculation a b "-" = JS.numberToString (JS.sub (JS.toNumber a) (JS.toNumber b)) := by
  simp [performCalculation, h1, h2]

theorem performCalculation_mul (a b : String) (h1 : JS.isFinite (JS.toNumber a) = true)
    (h2 : JS.isFinite (JS.toNumber b) = true) :
    performCalculation a b "*" = JS.numberToString (JS.mul (JS.toNumber a) (JS.toNumber b)) := by
  simp [performCalculation, h1, h2]

/-- C15, as the claim states it, fails: the sum of the integers
9007199254740993 and 0 is returned as `9007199254740992`. -/
theorem integer_sum_is_rounded :
    intText 9007199254740993 = "9007199254740993"
      ∧ intText 0 = "0"
      ∧ performCalculation "9007199254740993" "0" "+" = "9007199254740992"
      ∧ performCalculation "9007199254740993" "0" "+" ≠ intText (9007199254740993 + 0) := by
  decide!

/-- C15, amended: for integers `x` and `y` below `2^53` in absolute value,
written in decimal, `performCalculation` returns the decimal representation of
`x + y`, of `x - y` and of `x * y` whenever that result is below `2^53` in
absolute value too; a decimal representation is never `Error`. -/
theorem integer_arithmetic_exact (x y : Int) (hx : x.natAbs < 2 ^ 53)
    (hy : y.natAbs < 2 ^ 53) :
    ((x + y).natAbs < 2 ^ 53 →
        performCalculation (intText x) (intText y) "+" = intText (x + y))
      ∧ ((x - y).natAbs < 2 ^ 53 →
        performCalculation (intText x) (intText y) "-" = intText (x - y))
      ∧ ((x * y).natAbs < 2 ^ 53 →
        performCalculation (intText x) (intText y) "*" = intText (x * y))
      ∧ ∀ z : Int, intText z ≠ "Error" := by
  have ha := represents_toNumber x hx
  have hb := represents_toNumber y hy
  have fa := isFinite_represents _ _ ha
  have fb := isFinite_represents _ _ hb
  refine ⟨fun h => ?_, fun h => ?_, fun h => ?_, intText_ne_error⟩
  · rw [performCalculation_add _ _ fa fb]
    exact numberToString_represents _ _ (represents_add _ _ x y ha hb h) h
  · rw [performCalculation_sub _ _ fa fb]
    exact numberToString_represents _ _ (represents_sub _ _ x y ha hb h) h
  · rw [performCalculation_mul _ _ fa fb]
    exact numberToString_represents _ _ (represents_mul _ _ x y ha hb h) h

/-- C15, amended, at 3 and 5: the difference is `-2`. -/
theorem integer_arithmetic_exact_witness :
    intText 3 = "3" ∧ intText 5 = "5" ∧ intText (3 - 5) = "-2"
      ∧ performCalculation (intText 3) (intText 5) "-" = intText (3 - 5)
      ∧ performCalculation (intText 3) (intText 5) "*" = intText (3 * 5) :=
  ⟨by decide, by decide, by decide,
    (integer_arithmetic_exact 3 5 (by decide) (by decide)).2.1 (by decide),
    (integer_arithmetic_exact 3 5 (by decide) (by decide)).2.2.1 (by decide)⟩

/-! ## The display formatter on decimal strings -/

theorem roundRat_eq_pack (s : Bool) (n d : Nat) :
    JS.roundRat s n d =
      if n = 0 then JS.Num.fin s 0 0
      else roundPack s (JS.scaledDiv n d (roundExp n d)).1 (JS.scaledDiv n d (roundExp n d)).2.1
        (JS.scaledDiv n d (roundExp n d)).2.2 (roundExp n d) := rfl

theorem roundPack_finite (s : Bool) (q r den : Nat) (e : Int) (he : e ≤ 970) :
    JS.isFinite (roundPack s q r den e) = true := by
  unfold roundPack
  split_ifs <;> first | rfl | omega

theorem roundExp_le (n d : Nat) (K : Int)
    (h : (JS.bitLen n : Int) - (JS.bitLen d : Int) ≤ K) (hK : -1021 ≤ K) :
    roundExp n d ≤ K - 52 := by
  unfold roundExp
  split_ifs <;> omega

/-- A quotient below `2^64` is rounded to a finite Number. -/
theorem roundRat_finite (s : Bool) (n d : Nat) (hd : 0 < d) (h : n < 2 ^ 64 * d) :
    JS.isFinite (JS.roundRat s n d) = true := by
  rcases Nat.eq_zero_or_pos n with h0 | h0
  · rw [h0, roundRat_zero]
    rfl
  · obtain ⟨bn, hbn, hn1, _⟩ := bitLen_spec n h0
    obtain ⟨bd, hbd, _, hd2⟩ := bitLen_spec d hd
    have hlt : 2 ^ bn < 2 ^ (64 + (bd + 1)) := by
      calc 2 ^ bn ≤ n := hn1
        _ < 2 ^ 64 * d := h
        _ < 2 ^ 64 * 2 ^ (bd + 1) := Nat.mul_lt_mul_of_pos_left hd2 (pow_pos (by decide) _)
        _ = 2 ^ (64 + (bd + 1)) := (pow_add _ _ _).symm
    have hk := pow_lt_pow_cancel _ _ hlt
    have hK : (JS.bitLen n : Int) - (JS.bitLen d : Int) ≤ 65 := by
      rw [hbn, hbd]
      omega
    rw [roundRat_eq_pack, if_neg (by omega)]
    exact roundPack_finite s _ _ _ _ (by have := roundExp_le n d 65 hK (by decide); omega)

theorem foldl_digits (b : List Char) (acc : Nat) :
    b.foldl (fun acc c => acc * 10 + (c.toNat - 48)) acc
      = acc * 10 ^ b.length + JS.digitsVal b := by
  induction b generalizing acc with
  | nil => simp [JS.digitsVal]
  | cons c b ih =>
    unfold JS.digitsVal
    rw [List.foldl_cons, List.foldl_cons, ih, ih (0 * 10 + (c.toNat - 48)), List.length_cons,
      pow_succ]
    unfold JS.digitsVal
    ring

theorem digitsVal_append (a b : List Char) :
    JS.digitsVal (a ++ b) = JS.digitsVal a * 10 ^ b.length + JS.digitsVal b := by
  unfold JS.digitsVal
  rw [List.foldl_append, foldl_digits]
  rfl

theorem digitsVal_lt (b : List Char) (h : ∀ c ∈ b, JS.isDigit c = true) :
    JS.digitsVal b < 10 ^ b.length := by
  induction b using List.reverseRecOn with
  | nil => decide
  | append_singleton b c ih =>
    rw [digitsVal_append_singleton, List.length_append, List.length_singleton, pow_succ]
    have hb := ih (fun x hx => h x (List.mem_append_left _ hx))
    have hc := h c (by simp)
    simp only [JS.isDigit, Bool.and_eq_true, decide_eq_true_eq] at hc
    omega

theorem takeWhile_append_stop (p : Char → Bool) (a : List Char) (x : Char) (r : List Char)
    (ha : ∀ c ∈ a, p c = true) (hx : p x = false) : (a ++ x :: r).takeWhile p = a := by
  induction a with
  | nil => simp [List.takeWhile_cons, hx]
  | cons c a ih =>
    rw [List.cons_append, List.takeWhile_cons, if_pos (ha c (List.mem_cons_self _ _)),
      ih (fun y hy => ha y (List.mem_cons_of_mem _ hy))]

theorem dropWhile_append_stop (p : Char → Bool) (a : List Char) (x : Char) (r : List Char)
    (ha : ∀ c ∈ a, p c = true) (hx : p x = false) : (a ++ x :: r).dropWhile p = x :: r := by
  induction a with
  | nil => simp [List.dropWhile_cons, hx]
  | cons c a ih =>
    rw [List.cons_append, List.dropWhile_cons, if_pos (ha c (List.mem_cons_self _ _)),
      ih (fun y hy => ha y (List.mem_cons_of_mem _ hy))]

theorem decimalValue_finite (ip fp : List Char) (hip : JS.digitsVal ip < 2 ^ 53)
    (hfp : ∀ c ∈ fp, JS.isDigit c = true) :
    JS.isFinite (JS.decimalValue false ip fp 0) = true := by
  have hv : JS.digitsVal (ip ++ fp) < 2 ^ 53 * 10 ^ fp.length := by
    rw [digitsVal_append]
    have h1 := digitsVal_lt fp hfp
    calc JS.digitsVal ip * 10 ^ fp.length + JS.digitsVal fp
        < JS.digitsVal ip * 10 ^ fp.length + 10 ^ fp.length := by omega
      _ = (JS.digitsVal ip + 1) * 10 ^ fp.length := by ring
      _ ≤ 2 ^ 53 * 10 ^ fp.length := Nat.mul_le_mul_right _ hip
  have hbig : 2 ^ 53 * 10 ^ fp.length ≤ 2 ^ 64 * 10 ^ fp.length :=
    Nat.mul_le_mul_right _ (by decide)
  unfold JS.decimalValue
  simp only
  split
  · rename_i hp
    have hl : fp.length = 0 := by omega
    have h0 : ((0 : Int) - (fp.length : Int)).toNat = 0 := by omega
    rw [h0, pow_zero, Nat.mul_one]
    apply roundRat_finite _ _ _ (by decide)
    rw [hl, pow_zero] at hv hbig
    omega
  · rename_i hp
    have h0 : (-((0 : Int) - (fp.length : Int))).toNat = fp.length := by omega
    rw [h0]
    exact roundRat_finite _ _ _ (pow_pos (by decide) _) (lt_of_lt_of_le hv hbig)

theorem parseUnsigned_decimal (ip fp : List Char) (hne : ip ≠ [])
    (hip : ∀ c ∈ ip, JS.isDigit c = true) (hfp : ∀ c ∈ fp, JS.isDigit c = true) :
    JS.parseUnsigned false (ip ++ '.' :: fp) = JS.decimalValue false ip fp 0 := by
  have hinf : ip ++ '.' :: fp ≠ ['I', 'n', 'f', 'i', 'n', 'i', 't', 'y'] := by
    intro he
    cases ip with
    | nil => exact absurd rfl hne
    | cons c cs =>
      simp only [List.cons_append, List.cons.injEq] at he
      have := hip c (List.mem_cons_self _ _)
      rw [he.1] at this
      exact absurd this (by decide)
  unfold JS.parseUnsigned
  simp only [if_neg hinf, takeWhile_append_stop _ ip '.' fp hip (by decide),
    dropWhile_append_stop _ ip '.' fp hip (by decide), takeWhile_all _ fp hfp,
    dropWhile_all _ fp hfp, hne, false_and, if_false]

theorem parseNumeric_decimal (l : List Char) (c : Char) (cs : List Char) (h : l = c :: cs)
    (hc : JS.isDigit c = true)
    (h2 : ∀ c2 r, cs = c2 :: r → JS.isDigit c2 = true ∨ c2 = '.') :
    JS.parseNumeric l = JS.parseUnsigned false l := by
  subst h
  have hx : ∀ x : Char, ¬ (JS.isDigit x = true ∨ x = '.') → ∀ r, cs ≠ x :: r :=
    fun x hx r he => hx (h2 x r he)
  unfold JS.parseNumeric
  split
  · rename_i he; exact absurd he (by simp)
  · rename_i he
    simp only [List.cons.injEq] at he
    exact absurd he.2 (hx 'x' (by decide) _)
  · rename_i he
    simp only [List.cons.injEq] at he
    exact absurd he.2 (hx 'X' (by decide) _)
  · rename_i he
    simp only [List.cons.injEq] at he
    exact absurd he.2 (hx 'o' (by decide) _)
  · rename_i he
    simp only [List.cons.injEq] at he
    exact absurd he.2 (hx 'O' (by decide) _)
  · rename_i he
    simp only [List.cons.injEq] at he
    exact absurd he.2 (hx 'b' (by decide) _)
  · rename_i he
    simp only [List.cons.injEq] at he
    exact absurd he.2 (hx 'B' (by decide) _)
  · rename_i he
    simp only [List.cons.injEq] at he
    rw [he.1] at hc
    exact absurd hc (by decide)
  · rename_i he
    simp only [List.cons.injEq] at he
    rw [he.1] at hc
    exact absurd hc (by decide)
  · rfl

theorem splitDot_no_dot (l : List Char) (h : ∀ c ∈ l, c ≠ '.') : splitDot l = [l] := by
  induction l with
  | nil => rfl
  | cons c l ih =>
    have hc : c ≠ '.' := h c (List.mem_cons_self _ _)
    unfold splitDot
    rw [if_neg hc, ih (fun x hx => h x (List.mem_cons_of_mem _ hx))]

theorem splitDot_append_dot (a b : List Char) (h : ∀ c ∈ a, c ≠ '.') :
    splitDot (a ++ '.' :: b) = a :: splitDot b := by
  induction a with
  | nil =>
    show splitDot ('.' :: b) = _
    conv_lhs => unfold splitDot
    rw [if_pos rfl]
  | cons c a ih =>
    have hc : c ≠ '.' := h c (List.mem_cons_self _ _)
    rw [List.cons_append]
    conv_lhs => unfold splitDot
    rw [if_neg hc, ih (fun x hx => h x (List.mem_cons_of_mem _ hx))]

theorem isDigit_ne_dot (c : Char) (h : JS.isDigit c = true) : c ≠ '.' := by
  rintro rfl
  exact absurd h (by decide)

theorem isDigit_ne_comma (c : Char) (h : JS.isDigit c = true) : c ≠ ',' := by
  rintro rfl
  exact absurd h (by decide)

theorem toNumber_natDigits_text (n : Nat) :
    JS.toNumber (String.mk (JS.natDigits n)) = JS.roundRat false n 1 := by
  obtain ⟨c, cs, hc, hcd⟩ := natDigits_head n
  obtain ⟨d, ds, hd, hdd⟩ := natDigits_last n
  unfold JS.toNumber
  simp only
  rw [trim_of_ends _ c d cs ds hc hd (isDigit_not_whiteSpace c hcd)
    (isDigit_not_whiteSpace d hdd)]
  exact toNumber_natDigits n

/-- The shortest digits of a Number whose value is the integer `N`,
`0 < N < 2^53`: `k` digits `s` with `s * 10^(L-k) = N`, `L` the number of
digits of `N`. -/
theorem shortest_int (N M : Nat) (E : Int) (hN : 0 < N) (hN2 : N < 2 ^ 53) (hE : E ≤ 0)
    (hM : M = N * 2 ^ (-E).toNat) :
    ∃ k2 s2, JS.shortest (JS.fracOf M E).1 (JS.fracOf M E).2
        = (k2, s2, ((JS.natDigits N).length : Int))
      ∧ k2 ≤ (JS.natDigits N).length ∧ s2 * 10 ^ ((JS.natDigits N).length - k2) = N := by
  have hden : 0 < 2 ^ (-E).toNat := pow_pos (by decide) _
  have hL := lt_pow_length_natDigits N
  have hL16 := length_natDigits_safe N hN2
  simp only [fracOf_int N M E hE hM, JS.shortest, decExp_int N _ hN hden]
  exact shortestAux_int N (2 ^ (-E).toNat) (JS.natDigits N).length hN hN2 hden hL 1100 1
    (Nat.succ_le_of_lt (List.length_pos.mpr (natDigits_ne_nil N))) (by omega)

theorem shortestFrac_int (N M : Nat) (E : Int) (hN : 0 < N) (hN2 : N < 2 ^ 53) (hE : E ≤ 0)
    (hM : M = N * 2 ^ (-E).toNat) : JS.shortestFrac M E = (N, 1) := by
  obtain ⟨k2, s2, hsh, hk2, hs2⟩ := shortest_int N M E hN hN2 hE hM
  unfold JS.shortestFrac
  simp only [hsh]
  have hge : ((JS.natDigits N).length : Int) - (k2 : Int) ≥ 0 := by omega
  have hnat : (((JS.natDigits N).length : Int) - (k2 : Int)).toNat
      = (JS.natDigits N).length - k2 := by omega
  rw [if_pos hge, hnat, hs2]

/-- The `en-US` text of an integer below `2^53`: its digits grouped in threes. -/
theorem toLocaleString_int (n : Nat) (hn : n < 2 ^ 53) :
    JS.toLocaleString (JS.roundRat false n 1)
      = String.mk (JS.groupThousands (JS.natDigits n)) := by
  rcases Nat.eq_zero_or_pos n with h0 | h0
  · subst h0
    decide
  · obtain ⟨hM1, _, hb1, hb2, hr⟩ := roundRat_int false n 1 h0 hn (by decide)
    rw [Nat.mul_one] at hr
    rw [hr]
    have hE : (-((JS.bitLen n : Int) - 53)).toNat = 53 - JS.bitLen n := by omega
    have hsf := shortestFrac_int n (n * 2 ^ (53 - JS.bitLen n)) ((JS.bitLen n : Int) - 53)
      h0 hn (by omega) (by rw [hE])
    have hM0 : n * 2 ^ (53 - JS.bitLen n) ≠ 0 := by omega
    have hq : (2 * 1000 * n + 1) / (2 * 1) = 1000 * n := by omega
    simp only [JS.toLocaleString, hsf, if_neg hM0, hq]
    have h1 : 1000 * n % 1000 = 0 := Nat.mul_mod_right _ _
    have h3 : 1000 * n / 1000 = n := Nat.mul_div_cancel_left _ (by decide)
    rw [h1, h3]
    simp [JS.fractionDigits]

theorem groupRev_filter (l : List Char) :
    (JS.groupRev l).filter (fun c => c != ',') = l.filter (fun c => c != ',') := by
  induction l using JS.groupRev.induct with
  | case1 a b c d rest ih =>
    rw [JS.groupRev]
    simp only [List.filter_cons]
    rw [ih]
    simp [List.filter_cons]
  | case2 l h =>
    rw [JS.groupRev]
    intro a b c d rest he
    exact h a b c d rest he

theorem groupThousands_filter (ds : List Char) (h : ∀ c ∈ ds, JS.isDigit c = true) :
    (JS.groupThousands ds).filter (fun c => c != ',') = ds := by
  unfold JS.groupThousands
  rw [List.filter_reverse, groupRev_filter, ← List.filter_reverse, List.reverse_reverse]
  apply List.filter_eq_self.mpr
  intro c hc
  simpa using isDigit_ne_comma c (h c hc)

theorem trim_of_no_space (l : List Char) (h : ∀ c ∈ l, JS.isWhiteSpace c = false) :
    JS.trim l = l := by
  cases l with
  | nil => rfl
  | cons c cs =>
    cases hr : (c :: cs).reverse with
    | nil => simp at hr
    | cons d ds =>
      have hd : d ∈ c :: cs := by
        have : d ∈ (c :: cs).reverse := by rw [hr]; simp
        exact List.mem_reverse.mp this
      exact trim_of_ends _ c d cs ds rfl hr (h c (List.mem_cons_self _ _)) (h d hd)

theorem decimalText_data (n : Nat) (frac : Option (List Char)) :
    (decimalText n frac).data = JS.natDigits n ++
      (match frac with
       | none => []
       | some fp => '.' :: fp) := rfl

theorem decimalText_finite (n : Nat) (frac : Option (List Char)) (hn : n < 2 ^ 53)
    (hfrac : ∀ fp, frac = some fp → ∀ c ∈ fp, JS.isDigit c = true) :
    JS.isFinite (JS.toNumber (decimalText n frac)) = true := by
  obtain ⟨c, cs, hc, hcd⟩ := natDigits_head n
  have hdig := natDigits_all_digits n
  unfold JS.toNumber
  rw [decimalText_data]
  cases frac with
  | none =>
    simp only [List.append_nil]
    rw [trim_of_no_space _ (fun x hx => isDigit_not_whiteSpace x (hdig x hx)),
      toNumber_natDigits]
    exact roundRat_finite _ _ _ (by decide) (by omega)
  | some fp =>
    have hfp := hfrac fp rfl
    simp only
    have hsp : ∀ x ∈ JS.natDigits n ++ '.' :: fp, JS.isWhiteSpace x = false := by
      intro x hx
      simp only [List.mem_append, List.mem_cons] at hx
      rcases hx with hx | hx | hx
      · exact isDigit_not_whiteSpace x (hdig x hx)
      · subst hx; decide
      · exact isDigit_not_whiteSpace x (hfp x hx)
    rw [trim_of_no_space _ hsp]
    have hpn : JS.parseNumeric (JS.natDigits n ++ '.' :: fp)
        = JS.parseUnsigned false (JS.natDigits n ++ '.' :: fp) := by
      apply parseNumeric_decimal _ c (cs ++ '.' :: fp) (by rw [hc]; rfl) hcd
      intro c2 r he
      cases cs with
      | nil =>
        simp only [List.nil_append, List.cons.injEq] at he
        exact Or.inr he.1.symm
      | cons c3 cs3 =>
        simp only [List.cons_append, List.cons.injEq] at he
        left
        rw [← he.1]
        exact hdig c3 (by rw [hc]; simp)
    rw [hpn, parseUnsigned_decimal _ _ (natDigits_ne_nil n) hdig hfp]
    exact decimalValue_finite _ _ (by rw [digitsVal_natDigits]; exact hn) hfp

theorem decimalText_not_sentinel (n : Nat) (frac : Option (List Char)) :
    ¬ (decimalText n frac = "Error" ∨ decimalText n frac = "NaN"
      ∨ decimalText n frac = "-NaN") := by
  obtain ⟨c, cs, hc, hcd⟩ := natDigits_head n
  have hd : ∀ v : String, decimalText n frac = v → ∃ r, v.data = c :: r := by
    intro v hv
    rw [← hv, decimalText_data, hc]
    exact ⟨_, rfl⟩
  rintro (h | h | h)
  · obtain ⟨r, hr⟩ := hd _ h
    have : c = 'E' := (List.cons.inj hr).1.symm
    rw [this] at hcd
    exact absurd hcd (by decide)
  · obtain ⟨r, hr⟩ := hd _ h
    have : c = 'N' := (List.cons.inj hr).1.symm
    rw [this] at hcd
    exact absurd hcd (by decide)
  · obtain ⟨r, hr⟩ := hd _ h
    have : c = '-' := (List.cons.inj hr).1.symm
    rw [this] at hcd
    exact absurd hcd (by decide)

theorem getLast?_snoc (l : List Char) (x : Char) : (l ++ [x]).getLast? = some x := by
  simp

theorem getLast?_of_last_digit (l : List Char) (hne : l ≠ [])
    (h : ∀ c ∈ l, JS.isDigit c = true) (pre : List Char) :
    (pre ++ l).getLast? ≠ some '.' := by
  rcases List.eq_nil_or_concat l with h0 | ⟨l2, x, hx⟩
  · exact absurd h0 hne
  · rw [hx, List.concat_eq_append, ← List.append_assoc, getLast?_snoc]
    intro he
    have hd := h x (by rw [hx, List.concat_eq_append]; simp)
    rw [Option.some.inj he] at hd
    exact absurd hd (by decide)

theorem string_mk_append (a b : List Char) : String.mk a ++ String.mk b = String.mk (a ++ b) :=
  rfl

theorem formatNumber_decimalText (n : Nat) (frac : Option (List Char)) (hn : n < 2 ^ 53)
    (hfrac : ∀ fp, frac = some fp → ∀ c ∈ fp, JS.isDigit c = true) :
    formatNumber (decimalText n frac)
      = String.mk (JS.groupThousands (JS.natDigits n) ++
          (match frac with
           | none => []
           | some fp => '.' :: fp)) := by
  have hfin := decimalText_finite n frac hn hfrac
  have hsent := decimalText_not_sentinel n frac
  have hdig := natDigits_all_digits n
  have hnodot : ∀ c ∈ JS.natDigits n, c ≠ '.' := fun c hc => isDigit_ne_dot c (hdig c hc)
  have hint : JS.toLocaleString (JS.toNumber (String.mk (JS.natDigits n)))
      = String.mk (JS.groupThousands (JS.natDigits n)) := by
    rw [toNumber_natDigits_text, toLocaleString_int n hn]
  unfold formatNumber
  rw [if_neg hsent, hfin]
  simp only [Bool.not_true, Bool.false_eq_true, if_false, decimalText_data]
  cases frac with
  | none =>
    simp only [List.append_nil]
    have hl := getLast?_of_last_digit _ (natDigits_ne_nil n) hdig []
    rw [List.nil_append] at hl
    rw [if_neg hl, splitDot_no_dot _ hnodot]
    exact hint
  | some fp =>
    have hfp := hfrac fp rfl
    have hfpdot : ∀ c ∈ fp, c ≠ '.' := fun c hc => isDigit_ne_dot c (hfp c hc)
    simp only
    rw [splitDot_append_dot _ _ hnodot, splitDot_no_dot _ hfpdot]
    simp only [List.headD_cons, List.tail_cons, List.head?_cons]
    rw [hint]
    cases fp with
    | nil =>
      rw [if_pos (getLast?_snoc _ _)]
      rfl
    | cons f fs =>
      have hl : (JS.natDigits n ++ '.' :: f :: fs).getLast? ≠ some '.' := by
        have := getLast?_of_last_digit (f :: fs) (List.cons_ne_nil _ _) hfp
          (JS.natDigits n ++ ['.'])
        rwa [List.append_assoc] at this
      rw [if_neg hl, if_neg (List.cons_ne_nil _ _)]
      apply String.ext
      simp [String.data_append]

theorem removeCommas_grouped (ds rest : List Char) (hds : ∀ c ∈ ds, JS.isDigit c = true)
    (hrest : ∀ c ∈ rest, c ≠ ',') :
    removeCommas (String.mk (JS.groupThousands ds ++ rest)) = String.mk (ds ++ rest) := by
  unfold removeCommas
  simp only [List.filter_append, groupThousands_filter ds hds]
  congr 2
  apply List.filter_eq_self.mpr
  intro c hc
  simpa using hrest c hc

/-- C16, as the claim states it, fails: the decimal string 9007199254740993 is
formatted as `9,007,199,254,740,992`, which without its commas is another
number. -/
theorem format_rounds_long_integer :
    decimalText 9007199254740993 none = "9007199254740993"
      ∧ formatNumber "9007199254740993" = "9,007,199,254,740,992"
      ∧ removeCommas (formatNumber "9007199254740993") ≠ "9007199254740993" := by
  decide!

/-- C16, amended: for every decimal string whose integer part `n`, written
without superfluous leading zeros, is below `2^53`, optionally followed by `.`
and zero or more digits, `formatNumber` groups the integer digits in threes
from the right with `,` and leaves the `.` and the fraction digits as they
are; deleting every `,` gives back the string. -/
theorem format_groups_integer_part (n : Nat) (frac : Option (List Char)) (hn : n < 2 ^ 53)
    (hfrac : ∀ fp, frac = some fp → ∀ c ∈ fp, JS.isDigit c = true) :
    formatNumber (decimalText n frac)
        = String.mk (JS.groupThousands (JS.natDigits n) ++
            (match frac with
             | none => []
             | some fp => '.' :: fp))
      ∧ removeCommas (formatNumber (decimalText n frac)) = decimalText n frac := by
  refine ⟨formatNumber_decimalText n frac hn hfrac, ?_⟩
  rw [formatNumber_decimalText n frac hn hfrac]
  cases frac with
  | none =>
    exact removeCommas_grouped _ [] (natDigits_all_digits n) (fun c hc => by simp at hc)
  | some fp =>
    apply removeCommas_grouped _ ('.' :: fp) (natDigits_all_digits n)
    intro c hc
    simp only [List.mem_cons] at hc
    rcases hc with hc | hc
    · subst hc; decide
    · exact isDigit_ne_comma c (hfrac fp rfl c hc)

/-- C16, amended, at 1234567, at `1234567.` and at 1234567.250. -/
theorem format_groups_integer_part_witness :
    decimalText 1234567 none = "1234567"
      ∧ formatNumber (decimalText 1234567 none) = "1,234,567"
      ∧ formatNumber (decimalText 1234567 (some [])) = "1,234,567."
      ∧ formatNumber (decimalText 1234567 (some ['2', '5', '0'])) = "1,234,567.250"
      ∧ removeCommas (formatNumber (decimalText 1234567 (some ['2', '5', '0'])))
          = decimalText 1234567 (some ['2', '5', '0']) :=
  ⟨by decide,
    (format_groups_integer_part 1234567 none (by decide)
      (fun fp h => absurd h (by simp))).1.trans (by decide),
    (format_groups_integer_part 1234567 (some []) (by decide)
      (fun fp h c hc => by cases h; simp at hc)).1.trans (by decide),
    (format_groups_integer_part 1234567 (some ['2', '5', '0']) (by decide)
      (fun fp h c hc => by
        cases h
        simp only [List.mem_cons, List.mem_singleton, List.not_mem_nil, or_false] at hc
        rcases hc with hc | hc | hc <;> subst hc <;> decide)).1.trans (by decide),
    (format_groups_integer_part 1234567 (some ['2', '5', '0']) (by decide)
      (fun fp h c hc => by
        cases h
        simp only [List.mem_cons, List.mem_singleton, List.not_mem_nil, or_false] at hc
        rcases hc with hc | hc | hc <;> subst hc <;> decide)).2⟩

/-! ## The characters of the current value -/

theorem isNumberChar_of_isDigit (c : Char) (h : JS.isDigit c = true) :
    isNumberChar c = true := by
  simp [isNumberChar, h]

theorem count_dot_digits (l : List Char) (h : ∀ c ∈ l, JS.isDigit c = true) :
    l.count '.' = 0 :=
  List.count_eq_zero_of_not_mem (fun hm => absurd (h '.' hm) (by decide))

theorem isNumberText_iff (v : String) :
    isNumberText v = true ↔
      (∀ c ∈ v.data, isNumberChar c = true) ∧ v.data.count '.' ≤ 1 := by
  simp [isNumberText]

theorem renderDigits_chars (k s : Nat) (n : Int) :
    ∀ c ∈ JS.renderDigits k s n, isNumberChar c = true := by
  have hds : ∀ c ∈ JS.natDigits s, isNumberChar c = true :=
    fun c hc => isNumberChar_of_isDigit c (natDigits_all_digits s c hc)
  have hex : ∀ c ∈ JS.natDigits (n - 1).natAbs, isNumberChar c = true :=
    fun c hc => isNumberChar_of_isDigit c (natDigits_all_digits _ c hc)
  have hz : isNumberChar '0' = true := by decide
  have hdot : isNumberChar '.' = true := by decide
  have he : isNumberChar 'e' = true := by decide
  have hm : isNumberChar '-' = true := by decide
  have hp : isNumberChar '+' = true := by decide
  intro c hc
  unfold JS.renderDigits at hc
  simp only at hc
  split_ifs at hc <;>
    simp only [List.mem_append, List.mem_cons, List.mem_replicate] at hc
  · rcases hc with hc | hc
    · exact hds c hc
    · rw [hc.2]; exact hz
  · rcases hc with hc | hc | hc
    · exact hds c (List.mem_of_mem_take hc)
    · rw [hc]; exact hdot
    · exact hds c (List.mem_of_mem_drop hc)
  · rcases hc with hc | hc | hc | hc
    · rw [hc]; exact hz
    · rw [hc]; exact hdot
    · rw [hc.2]; exact hz
    · exact hds c hc
  · rcases hc with hc | hc | hc | hc
    · exact hds c hc
    · rw [hc]; exact he
    · rw [hc]; exact hm
    · exact hex c hc
  · rcases hc with hc | hc | hc | hc
    · exact hds c hc
    · rw [hc]; exact he
    · rw [hc]; exact hp
    · exact hex c hc
  · rcases hc with hc | hc | hc | hc | hc | hc
    · exact hds c (List.mem_of_mem_take hc)
    · rw [hc]; exact hdot
    · exact hds c (List.mem_of_mem_drop hc)
    · rw [hc]; exact he
    · rw [hc]; exact hm
    · exact hex c hc
  · rcases hc with hc | hc | hc | hc | hc | hc
    · exact hds c (List.mem_of_mem_take hc)
    · rw [hc]; exact hdot
    · exact hds c (List.mem_of_mem_drop hc)
    · rw [hc]; exact he
    · rw [hc]; exact hp
    · exact hex c hc

theorem renderDigits_count_dot (k s : Nat) (n : Int) :
    (JS.renderDigits k s n).count '.' ≤ 1 := by
  have hdig := natDigits_all_digits s
  have hds := count_dot_digits _ hdig
  have hex := count_dot_digits _ (natDigits_all_digits (n - 1).natAbs)
  have htake : ∀ j, ((JS.natDigits s).take j).count '.' = 0 := fun j =>
    count_dot_digits _ (fun c hc => hdig c (List.mem_of_mem_take hc))
  have hdrop : ∀ j, ((JS.natDigits s).drop j).count '.' = 0 := fun j =>
    count_dot_digits _ (fun c hc => hdig c (List.mem_of_mem_drop hc))
  have htail : (JS.natDigits s).tail.count '.' = 0 := by
    rw [← List.drop_one]
    exact hdrop 1
  have hrep : ∀ j, (List.replicate j '0').count '.' = 0 := fun j =>
    List.count_eq_zero_of_not_mem (fun hm => by
      rw [List.mem_replicate] at hm
      exact absurd hm.2 (by decide))
  unfold JS.renderDigits
  simp only
  split_ifs <;>
    simp [List.count_append, List.count_cons, hds, hex, htake, hdrop, htail, hrep]

theorem numberToString_text (x : JS.Num) : isNumberText (JS.numberToString x) = true := by
  cases x with
  | nan => decide
  | inf s => cases s <;> decide
  | fin s m e =>
    simp only [JS.numberToString]
    split
    · decide
    · rw [isNumberText_iff]
      have hc := renderDigits_chars
        (JS.shortest (JS.fracOf m e).1 (JS.fracOf m e).2).1
        (JS.shortest (JS.fracOf m e).1 (JS.fracOf m e).2).2.1
        (JS.shortest (JS.fracOf m e).1 (JS.fracOf m e).2).2.2
      have hd := renderDigits_count_dot
        (JS.shortest (JS.fracOf m e).1 (JS.fracOf m e).2).1
        (JS.shortest (JS.fracOf m e).1 (JS.fracOf m e).2).2.1
        (JS.shortest (JS.fracOf m e).1 (JS.fracOf m e).2).2.2
      cases s
      · simpa using ⟨hc, hd⟩
      · constructor
        · intro c hcm
          simp only [if_true, List.singleton_append, List.mem_cons] at hcm
          rcases hcm with hcm | hcm
          · rw [hcm]; decide
          · exact hc c hcm
        · simp only [if_true, List.singleton_append, List.count_cons]
          simpa using hd

theorem performCalculation_text (a b op : String)
    (hb : b = "Error" ∨ isNumberText b = true) :
    performCalculation a b op = "Error" ∨ isNumberText (performCalculation a b op) = true := by
  unfold performCalculation
  simp only
  split
  · exact Or.inl rfl
  · split
    · exact Or.inr (numberToString_text _)
    · split
      · exact Or.inr (numberToString_text _)
      · split
        · exact Or.inr (numberToString_text _)
        · split
          · split
            · exact Or.inl rfl
            · exact Or.inr (numberToString_text _)
          · exact hb

theorem isNumberText_zero : isNumberText "0" = true := by decide

theorem isNumberText_zero_dot : isNumberText "0." = true := by decide

theorem isNumberText_digitStr (d : Fin 10) : isNumberText (digitStr d) = true := by
  fin_cases d <;> decide

theorem isNumberText_append_digit (v : String) (d : Fin 10) (h : isNumberText v = true) :
    isNumberText (v ++ digitStr d) = true := by
  rw [isNumberText_iff] at h ⊢
  obtain ⟨h1, h2⟩ := h
  have hd : JS.isDigit (JS.digitChar d.val) = true := isDigit_digitChar _
  have hdot : JS.digitChar d.val ≠ '.' := isDigit_ne_dot _ hd
  constructor
  · intro c hc
    simp only [String.data_append, digitStr_data, List.mem_append, List.mem_singleton] at hc
    rcases hc with hc | hc
    · exact h1 c hc
    · rw [hc]; exact isNumberChar_of_isDigit _ hd
  · simp only [String.data_append, digitStr_data, List.count_append, List.count_cons,
      List.count_nil]
    simp [hdot, h2]

theorem isNumberText_append_dot (v : String) (h : isNumberText v = true)
    (hdot : '.' ∉ v.data) : isNumberText (v ++ ".") = true := by
  rw [isNumberText_iff] at h ⊢
  obtain ⟨h1, _⟩ := h
  constructor
  · intro c hc
    simp only [String.data_append, List.mem_append] at hc
    rcases hc with hc | hc
    · exact h1 c hc
    · have : c = '.' := by simpa using hc
      rw [this]; decide
  · simp only [String.data_append, List.count_append]
    rw [List.count_eq_zero_of_not_mem hdot]
    decide

theorem isNumberText_dropLast (v : String) (h : isNumberText v = true) :
    isNumberText (String.mk v.data.dropLast) = true := by
  rw [isNumberText_iff] at h ⊢
  obtain ⟨h1, h2⟩ := h
  exact ⟨fun c hc => h1 c ((List.dropLast_sublist _).subset hc),
    le_trans ((List.dropLast_sublist _).count_le _) h2⟩

theorem text_step (s : CalcState) (e : Event)
    (h : s.currentValue = "Error" ∨ isNumberText s.currentValue = true) :
    (step s e).currentValue = "Error" ∨ isNumberText (step s e).currentValue = true := by
  cases e with
  | clear => exact Or.inr isNumberText_zero
  | digit d =>
    rw [step_digit]
    unfold handleNumber
    split
    · exact Or.inr (isNumberText_digitStr d)
    · rename_i h1
      have hne : s.currentValue ≠ "Error" := fun h2 => h1 (Or.inl h2)
      split
      · exact Or.inr (isNumberText_digitStr d)
      · exact Or.inr (isNumberText_append_digit _ d (h.resolve_left hne))
  | decimal =>
    rw [step_decimal]
    unfold handleDecimal
    split
    · exact Or.inr isNumberText_zero_dot
    · rename_i h1
      have hne : s.currentValue ≠ "Error" := fun h2 => h1 (Or.inl h2)
      split
      · rename_i hdot
        exact Or.inr (isNumberText_append_dot _ (h.resolve_left hne) hdot)
      · exact h
  | operator op =>
    rw [step_operator]
    unfold handleOperator
    split
    · exact h
    · split
      · split
        · exact performCalculation_text _ _ _ h
        · exact h
      · exact h
  | backspace =>
    rw [step_backspace]
    unfold handleBackspace
    split
    · exact Or.inr isNumberText_zero
    · rename_i h1
      have hne : s.currentValue ≠ "Error" := fun h2 => h1 (Or.inl h2)
      split
      · exact Or.inr isNumberText_zero
      · exact Or.inr (isNumberText_dropLast _ (h.resolve_left hne))
  | percent =>
    rw [step_percent]
    unfold handlePercent
    split
    · exact h
    · exact Or.inr (numberToString_text _)
  | equals =>
    rw [step_equals]
    unfold handleEquals
    split
    · split
      · exact h
      · exact performCalculation_text _ _ _ h
    · exact h

theorem text_run (s : CalcState) (es : List Event)
    (h : s.currentValue = "Error" ∨ isNumberText s.currentValue = true) :
    (run s es).currentValue = "Error" ∨ isNumberText (run s es).currentValue = true := by
  induction es generalizing s with
  | nil => exact h
  | cons e es ih =>
    rw [run_cons]
    exact ih (step s e) (text_step s e h)

/-- C4, amended: in every state reached from the state at mount the current
value is non-empty, has at most one `.`, and is `Error` or a text made only of
the characters of a Number's text (the digits, `.`, `-`, `+`, `e` and the
letters of `Infinity` and `NaN`) that starts with a digit, `-`, `N` or `I`;
when the events are Clear, Digit, Decimal and Backspace only, it is a
non-empty string of the digits 0-9 with at most one `.`. -/
theorem current_value_shape (es : List Event) :
    (run initialState es).currentValue ≠ ""
      ∧ ((run initialState es).currentValue = "Error"
          ∨ headOK (run initialState es).currentValue = true)
      ∧ (run initialState es).currentValue.data.count '.' ≤ 1
      ∧ ((run initialState es).currentValue = "Error"
          ∨ ∀ c ∈ (run initialState es).currentValue.data, isNumberChar c = true)
      ∧ (es.all Event.isEntry = true →
          isPartialDecimal (run initialState es).currentValue = true) := by
  have hinv := inv_reachable _ (reachable_run es)
  have htext := text_run initialState es (Or.inr isNumberText_zero)
  refine ⟨?_, hinv.head, ?_, ?_,
    fun hes => isPartialDecimal_run initialState es hes isPartialDecimal_zero⟩
  · rcases hinv.head with h | h
    · rw [h]; decide
    · exact headOK_ne_empty _ h
  · rcases htext with h | h
    · rw [h]; decide
    · exact ((isNumberText_iff _).mp h).2
  · rcases htext with h | h
    · exact Or.inl h
    · exact Or.inr ((isNumberText_iff _).mp h).1

/-- C4, amended, at the events 1, `.`, 5, Backspace: the current value is `1.`. -/
theorem current_value_shape_witness :
    [Event.digit 1, Event.decimal, Event.digit 5, Event.backspace].all Event.isEntry = true
      ∧ (run initialState
          [Event.digit 1, Event.decimal, Event.digit 5, Event.backspace]).currentValue = "1."
      ∧ isPartialDecimal (run initialState
          [Event.digit 1, Event.decimal, Event.digit 5, Event.backspace]).currentValue = true :=
  ⟨by decide, by decide,
    (current_value_shape
      [Event.digit 1, Event.decimal, Event.digit 5, Event.backspace]).2.2.2.2 (by decide)⟩
